import Mathlib

/-!
Verification development for the Data-Insight-Agent repository.

The Python sources under `src/` are shallowly embedded here:
text manipulation (`str.strip`, `str.split(sep, 1)`, `in`,
`re.search(r'\[.*\]', s, re.DOTALL)`) is modelled on `List Char`;
`json.loads` is modelled by an executable strict-JSON parser
(`jsonParse`) covering the JSON fragment the planner exchanges
(objects, arrays, strings with the standard escapes, integer
numerals, `true`/`false`/`null`); exceptions are modelled with
`Except String`; the language-model and database collaborators
are abstracted as function-valued parameters, exactly as the
specification declares them out of scope.
-/

namespace DIA

/-- JSON whitespace characters, as accepted by Python's `json.loads`. -/
def isJsonWs (c : Char) : Bool :=
  c = ' ' || c = '\t' || c = '\n' || c = '\r'

/-- Characters stripped by Python's `str.strip()` (ASCII fragment). -/
def isPyWs (c : Char) : Bool :=
  c = ' ' || c = '\t' || c = '\n' || c = '\r' || c = '\x0b' || c = '\x0c'

/-- Embeds `str.strip()` on a character list: drop leading and trailing whitespace. -/
def pyStrip (cs : List Char) : List Char :=
  ((cs.dropWhile isPyWs).reverse.dropWhile isPyWs).reverse

/-- Embeds `s.split(sep, 1)` combined with the membership test `sep in s`:
returns `some (before, after)` around the first occurrence of `pat`,
`none` when `pat` does not occur.  `pat` is assumed nonempty (all the
separators in the source are). -/
def splitFirst (pat : List Char) (cs : List Char) : Option (List Char × List Char) :=
  match cs with
  | [] => none
  | c :: rest =>
    if pat.isPrefixOf (c :: rest) then some ([], (c :: rest).drop pat.length)
    else (splitFirst pat rest).map (fun p => (c :: p.1, p.2))

/-- Python's `pat in s`. -/
def pyIn (pat : List Char) (cs : List Char) : Bool :=
  (splitFirst pat cs).isSome

/-- Embeds `re.search(r'\[.*\]', s, re.DOTALL)`: the substring from the first
`'['` to the last `']'` after it, when both exist. -/
def extractBrackets (cs : List Char) : Option (List Char) :=
  let t := cs.dropWhile (fun c => !(c = '[' : Bool))
  let r := t.reverse.dropWhile (fun c => !(c = ']' : Bool))
  if r.length ≥ 2 then some r.reverse else none

/-- Embeds `str.lower()` (ASCII; other characters unchanged, as in Python for
the characters occurring here). -/
def pyLower (cs : List Char) : List Char := cs.map Char.toLower

/-- Embeds `str.upper()` (ASCII fragment). -/
def pyUpper (cs : List Char) : List Char := cs.map Char.toUpper

/-- Embeds `str.rstrip(";")`. -/
def pyRstripSemi (cs : List Char) : List Char :=
  (cs.reverse.dropWhile (fun c => c = ';')).reverse

/-- JSON values produced by `json.loads`, restricted to the fragment the
planner protocol uses (numbers are integer numerals). -/
inductive Json where
  | null : Json
  | bool : Bool → Json
  | num : Int → Json
  | str : String → Json
  | arr : List Json → Json
  | obj : List (String × Json) → Json
deriving Repr

/-- Dictionary insertion as performed by `json.loads` for object members:
a repeated key overwrites in place (later value wins, original position
kept), a new key is appended. -/
def objInsert (kvs : List (String × Json)) (k : String) (v : Json) :
    List (String × Json) :=
  match kvs with
  | [] => [(k, v)]
  | (k', v') :: rest =>
    if k' = k then (k', v) :: rest else (k', v') :: objInsert rest k v

/-- Build a dict from members in textual order (later duplicate wins). -/
def objFromPairs (pairs : List (String × Json)) : List (String × Json) :=
  pairs.foldl (fun d p => objInsert d p.1 p.2) []

/-- Dictionary lookup (`d.get(k)` returning `None` on absence). -/
def jLookup (k : String) : List (String × Json) → Option Json
  | [] => none
  | (k', v) :: rest => if k' = k then some v else jLookup k rest

/-- Hexadecimal digit value. -/
def hexVal (c : Char) : Option Nat :=
  if '0' ≤ c ∧ c ≤ '9' then some (c.toNat - '0'.toNat)
  else if 'a' ≤ c ∧ c ≤ 'f' then some (c.toNat - 'a'.toNat + 10)
  else if 'A' ≤ c ∧ c ≤ 'F' then some (c.toNat - 'A'.toNat + 10)
  else none

/-- Single-character escape table of the JSON string grammar. -/
def escChar (e : Char) : Option Char :=
  if e = '"' then some '"'
  else if e = '\\' then some '\\'
  else if e = '/' then some '/'
  else if e = 'b' then some '\x08'
  else if e = 'f' then some '\x0c'
  else if e = 'n' then some '\n'
  else if e = 'r' then some '\r'
  else if e = 't' then some '\t'
  else none

/-- Body of a JSON string literal, after the opening quote: returns the
decoded characters and the remainder after the closing quote. -/
def parseStrBody (cs : List Char) : Option (List Char × List Char) :=
  match cs with
  | [] => none
  | c :: rest =>
    if c = '"' then some ([], rest)
    else if c = '\\' then
      match rest with
      | [] => none
      | e :: rest2 =>
        if e = 'u' then
          match rest2 with
          | h1 :: h2 :: h3 :: h4 :: rest' =>
            match hexVal h1, hexVal h2, hexVal h3, hexVal h4 with
            | some a, some b, some c, some d =>
              (parseStrBody rest').map
                (fun p => (Char.ofNat (((a * 16 + b) * 16 + c) * 16 + d) :: p.1, p.2))
            | _, _, _, _ => none
          | _ => none
        else
          match escChar e with
          | some d => (parseStrBody rest2).map (fun p => (d :: p.1, p.2))
          | none => none
    else (parseStrBody rest).map (fun p => (c :: p.1, p.2))

/-- Decimal digit test. -/
def isDigitCh (c : Char) : Bool := '0' ≤ c && c ≤ '9'

/-- Digit run → natural number. -/
def digitsToNat (ds : List Char) : Nat :=
  ds.foldl (fun acc c => acc * 10 + (c.toNat - '0'.toNat)) 0

/-- Integer numeral: optional minus sign followed by digits. -/
def parseNum (cs : List Char) : Option (Int × List Char) :=
  match cs with
  | [] => none
  | c :: rest =>
    if c = '-' then
      let ds := rest.takeWhile isDigitCh
      if ds = [] then none
      else some (-(digitsToNat ds : Int), rest.dropWhile isDigitCh)
    else
      let ds := (c :: rest).takeWhile isDigitCh
      if ds = [] then none
      else some ((digitsToNat ds : Int), (c :: rest).dropWhile isDigitCh)

mutual

/-- One JSON value; leading JSON whitespace is skipped.  `fuel` bounds the
nesting depth (`jsonParse` supplies `length + 1`, which always suffices). -/
def parseVal (fuel : Nat) (cs : List Char) : Option (Json × List Char) :=
  match fuel with
  | 0 => none
  | fuel + 1 =>
    match cs.dropWhile isJsonWs with
    | [] => none
    | c :: r =>
      if c = '[' then (parseElems fuel r).map (fun p => (Json.arr p.1, p.2))
      else if c = '{' then
        (parseMembers fuel r).map (fun p => (Json.obj (objFromPairs p.1), p.2))
      else if c = '"' then (parseStrBody r).map (fun p => (Json.str ⟨p.1⟩, p.2))
      else if "true".data.isPrefixOf (c :: r) then some (Json.bool true, (c :: r).drop 4)
      else if "false".data.isPrefixOf (c :: r) then some (Json.bool false, (c :: r).drop 5)
      else if "null".data.isPrefixOf (c :: r) then some (Json.null, (c :: r).drop 4)
      else (parseNum (c :: r)).map (fun p => (Json.num p.1, p.2))

/-- Array elements after the opening `'['`, including the closing `']'`. -/
def parseElems (fuel : Nat) (cs : List Char) : Option (List Json × List Char) :=
  match fuel with
  | 0 => none
  | fuel + 1 =>
    match cs.dropWhile isJsonWs with
    | [] => none
    | c :: r =>
      if c = ']' then some ([], r)
      else
        match parseVal fuel (c :: r) with
        | none => none
        | some (v, r1) =>
          match r1.dropWhile isJsonWs with
          | [] => none
          | c2 :: r2 =>
            if c2 = ',' then (parseElems fuel r2).map (fun p => (v :: p.1, p.2))
            else if c2 = ']' then some ([v], r2)
            else none

/-- Object members after the opening `'{'`, including the closing `'}'`. -/
def parseMembers (fuel : Nat) (cs : List Char) :
    Option (List (String × Json) × List Char) :=
  match fuel with
  | 0 => none
  | fuel + 1 =>
    match cs.dropWhile isJsonWs with
    | [] => none
    | c :: r =>
      if c = '}' then some ([], r)
      else if c = '"' then
        match parseStrBody r with
        | none => none
        | some (k, r1) =>
          match r1.dropWhile isJsonWs with
          | [] => none
          | c2 :: r2 =>
            if c2 = ':' then
              match parseVal fuel r2 with
              | none => none
              | some (v, r3) =>
                match r3.dropWhile isJsonWs with
                | [] => none
                | c3 :: r4 =>
                  if c3 = ',' then
                    (parseMembers fuel r4).map (fun p => ((⟨k⟩, v) :: p.1, p.2))
                  else if c3 = '}' then some ([(⟨k⟩, v)], r4)
                  else none
            else none
      else none

end

/-- Embeds `json.loads` on the embedded fragment: parse one value and require
only whitespace to remain. -/
def jsonParse (cs : List Char) : Option Json :=
  match parseVal (cs.length + 1) cs with
  | some (v, rest) => if rest.dropWhile isJsonWs = [] then some v else none
  | none => none

/-- The degraded plan step built by `LLMClient._parse_tool_plan` when all
parsing tiers fail (src/core/llm_client.py line 157). -/
def fallbackStep (response : String) : Json :=
  Json.obj [("tool", Json.str "general_chat"),
            ("args", Json.obj [("message", Json.str response)]),
            ("reason", Json.str "解析失败，作为普通对话处理")]

/-- The fenced-marker cut of `_parse_tool_plan` (src/core/llm_client.py
lines 139-142): take what follows a `​```json` marker, then what precedes
the next `​```` marker. -/
def fenceCut (text0 : List Char) : List Char :=
  let text1 := match splitFirst "```json".data text0 with
    | some p => p.2
    | none => text0
  match splitFirst "```".data text1 with
  | some p => p.1
  | none => text1

/-- The text handed to `json.loads` by the first tier of
`_parse_tool_plan` (lines 138-143). -/
def tier1Text (response : String) : List Char :=
  pyStrip (fenceCut (pyStrip response.data))

/-- Embeds `LLMClient._parse_tool_plan` (src/core/llm_client.py lines 135-157):
strip, cut after a leading ```json marker and before the next ``` marker,
strict-parse; on failure extract the first `[` … last `]` span of the raw
response and parse that; on total failure degrade to one `general_chat`
step carrying the raw response. -/
def parse_tool_plan (response : String) : List Json :=
  match jsonParse (tier1Text response) with
  | some (Json.arr xs) => xs
  | some j => [j]
  | none =>
    match extractBrackets response.data with
    | some t =>
      match jsonParse t with
      | some (Json.arr xs) => xs
      | some j => [j]  -- unreachable: `t` starts with '[' so a parse is an array
      | none => [fallbackStep response]
    | none => [fallbackStep response]

/-- Planning-time tool metadata (`BaseTool.get_description`). -/
structure ToolDesc where
  name : String
  description : String
  parameters : String
deriving Repr

/-- The `tools_text` block of the planning prompt
(src/core/llm_client.py lines 94-97). -/
def toolsText (tool_descriptions : List ToolDesc) : String :=
  String.intercalate "\n"
    (tool_descriptions.map (fun t =>
      "- **" ++ t.name ++ "**: " ++ t.description ++ "  参数: " ++ t.parameters))

/-- The planning prompt (src/core/llm_client.py lines 99-130). -/
def planPrompt (tool_descriptions : List ToolDesc) (data_schema : String)
    (conversation_history : String) (user_query : String) : String :=
  "你是一位专业的数据分析Agent。根据用户的查询，你需要决定调用哪些工具来完成分析任务。\n\n## 可用工具\n"
  ++ toolsText tool_descriptions
  ++ "\n\n## 数据库表结构\n" ++ data_schema
  ++ "\n\n## 对话历史\n"
  ++ (if conversation_history ≠ "" then conversation_history else "无")
  ++ "\n\n## 用户查询\n" ++ user_query
  ++ "\n\n## 要求\n1. 分析用户的意图，选择合适的工具\n2. 如果需要多个步骤，按顺序列出所有需要调用的工具\n3. 对于每个工具调用，说明原因和参数\n4. 如果是简单的问候/闲聊，返回空列表并在reason中说明\n5. 尽量提供全面的分析，善用多个工具组合\n\n请以**严格**的JSON格式返回，不要包含其他文字。格式如下：\n```json\n[\n  \x7b\"tool\": \"工具名称\", \"args\": \x7b\"参数名\": \"参数值\"\x7d, \"reason\": \"调用原因\"\x7d\n]\n```\n\n如果是普通对话而非数据分析请求，返回：\n```json\n[\x7b\"tool\": \"general_chat\", \"args\": \x7b\"message\": \"用户消息\"\x7d, \"reason\": \"这是普通对话\"\x7d]\n```"

/-- Embeds `LLMClient` with its network-backed `chat` endpoint abstracted as an
oracle function (the language model is an out-of-scope collaborator). -/
structure LLMClient where
  chat : String → String

/-- Embeds `LLMClient.plan_tools` (src/core/llm_client.py lines 83-133). -/
def LLMClient.plan_tools (llm : LLMClient) (user_query : String)
    (tool_descriptions : List ToolDesc) (conversation_history : String)
    (data_schema : String) : List Json :=
  parse_tool_plan
    (llm.chat (planPrompt tool_descriptions data_schema conversation_history user_query))

/-- Embeds `LLMClient.general_chat` (src/core/llm_client.py lines 198-214). -/
def LLMClient.general_chat (llm : LLMClient) (question : String) : String :=
  llm.chat
    ("你是欧莱雅集团的智能数据分析助手 BeautyInsight，专注于美妆行业数据分析。\n\n专业领域：\n- 精通欧莱雅集团的销售数据分析\n- 帮助进行销量趋势、市场表现、品类分析等\n- 擅长通过图表直观展示数据洞察\n\n用户问题: \"" ++ question
      ++ "\"\n\n要求：\n- 用专业、友好的语言回答\n- 如果用户询问功能，介绍数据分析和可视化能力并举例\n- 适时建议可以进行的深入分析")

/-- The result dict every tool's `execute` must return (contract documented
in `BaseTool.execute`, src/tools/base_tool.py lines 17-28): a success flag,
a human-readable `result` text, optionally an `image_path` and structured
`data`. -/
structure ToolResult where
  success : Bool
  result : String
  image_path : Option String := none
  data : Json := Json.null
deriving Repr

/-- Argument mapping passed as `**kwargs`. -/
abbrev ArgMap := List (String × Json)

/-- A tool: its `execute` may fail for any reason; a Python exception is
modelled as `Except.error` carrying `str(e)`. -/
structure Tool where
  name : String
  description : String := ""
  parameters_description : String := "无"
  execute : ArgMap → Except String ToolResult

/-- Embeds `BaseTool.get_description` (src/tools/base_tool.py lines 31-37). -/
def Tool.get_description (t : Tool) : ToolDesc :=
  ⟨t.name, t.description, t.parameters_description⟩

/-- Embeds `BaseTool.safe_execute` (src/tools/base_tool.py lines 39-51): run
`execute`, converting any exception into a failure result naming the tool. -/
def Tool.safe_execute (t : Tool) (args : ArgMap) : ToolResult :=
  match t.execute args with
  | .ok r => r
  | .error e => { success := false, result := "工具 " ++ t.name ++ " 执行失败: " ++ e }

/-- Embeds `ToolRegistry` (src/agent/tool_registry.py): a dict from tool name
to tool, keyed by each tool's declared name. -/
structure ToolRegistry where
  tools : List Tool := []

/-- Embeds `ToolRegistry.register`: dict upsert under `tool.name` (last
registration wins, first-registration position kept). -/
def ToolRegistry.register (r : ToolRegistry) (t : Tool) : ToolRegistry :=
  if r.tools.any (fun u => u.name = t.name)
  then ⟨r.tools.map (fun u => if u.name = t.name then t else u)⟩
  else ⟨r.tools ++ [t]⟩

/-- Embeds `ToolRegistry.get`: pure lookup, `None` on absence. -/
def ToolRegistry.get (r : ToolRegistry) (name : String) : Option Tool :=
  r.tools.find? (fun t => t.name = name)

/-- Embeds `ToolRegistry.get_descriptions`. -/
def ToolRegistry.get_descriptions (r : ToolRegistry) : List ToolDesc :=
  r.tools.map Tool.get_description

/-- Embeds `ToolRegistry.execute` (src/agent/tool_registry.py lines 28-32):
unknown names yield a failure result; known names delegate to the tool's
fault-isolated `safe_execute`. -/
def ToolRegistry.execute (r : ToolRegistry) (name : String) (args : ArgMap) :
    ToolResult :=
  match r.get name with
  | none => { success := false, result := "未找到工具: " ++ name }
  | some t => t.safe_execute args

/-- One conversation turn (src/core/dialogue_context.py lines 34-39). -/
structure Message where
  role : String
  content : String
  timestamp : String
  metadata : Json
deriving Repr

/-- Embeds `DialogueContext` state.  Timestamps and session ids are opaque
strings supplied by the caller (`datetime.now()` is an external effect). -/
structure DialogueContext where
  messages : List Message := []
  max_history : Nat := 50
  current_session_id : Option String := none
  session_start_time : Option String := none
deriving Repr

/-- Embeds `DialogueContext.start_new_session` (lines 18-23). -/
def DialogueContext.start_new_session (ctx : DialogueContext) (now : String) :
    DialogueContext :=
  { ctx with current_session_id := some now, session_start_time := some now,
             messages := [] }

/-- Python's `xs[-n:]` slice on lists; note `xs[-0:] = xs`. -/
def pyLastSlice (n : Nat) (xs : List Message) : List Message :=
  if n = 0 then xs else xs.drop (xs.length - n)

/-- Embeds `DialogueContext.add_message` (src/core/dialogue_context.py lines
25-43): lazily open a session, append the message, then trim to the last
`max_history` entries when the bound is exceeded. -/
def DialogueContext.add_message (ctx : DialogueContext) (role content : String)
    (metadata : Option Json) (now : String) : DialogueContext :=
  let ctx := if ctx.current_session_id = none then ctx.start_new_session now else ctx
  let msg : Message :=
    { role := role, content := content, timestamp := now,
      metadata := metadata.getD (Json.obj []) }
  let msgs := ctx.messages ++ [msg]
  if msgs.length > ctx.max_history
  then { ctx with messages := pyLastSlice ctx.max_history msgs }
  else { ctx with messages := msgs }

/-- Embeds `DialogueContext.get_context_window` (lines 45-46). -/
def DialogueContext.get_context_window (ctx : DialogueContext)
    (window_size : Nat := 10) : List Message :=
  match ctx.messages with
  | [] => []
  | _ => pyLastSlice window_size ctx.messages

/-- Embeds `DialogueContext.get_formatted_history` (lines 48-56). -/
def DialogueContext.get_formatted_history (ctx : DialogueContext)
    (window_size : Nat := 10) : String :=
  match ctx.get_context_window window_size with
  | [] => "无历史对话"
  | recent =>
    String.intercalate "\n"
      (recent.map (fun m =>
        (if m.role = "user" then "用户" else "助手") ++ ": " ++ m.content))

/-- Embeds `DialogueContext.clear_context` (lines 61-65). -/
def DialogueContext.clear_context (ctx : DialogueContext) : DialogueContext :=
  { ctx with messages := [], current_session_id := none, session_start_time := none }

/-- Python `str(x)` / f-string display of a JSON value, used where the
orchestrator formats plan fields.  Container reprs are abbreviated; the
plan protocol only puts strings in these positions. -/
def pyStr : Json → String
  | .str s => s
  | .num n => toString n
  | .bool true => "True"
  | .bool false => "False"
  | .null => "None"
  | .arr _ => "[...]"
  | .obj _ => "\x7b...\x7d"

/-- Python `obj == "literal"` for a JSON value: strings compare by
content, any other type is simply unequal. -/
def jEqStr (j : Json) (s : String) : Bool :=
  match j with
  | .str s' => s' = s
  | _ => false

/-- Embeds `step.get(key, default)`: raises `AttributeError` when the plan step
is not a dict. -/
def pyGet (j : Json) (k : String) (dflt : Json) : Except String Json :=
  match j with
  | .obj kvs => .ok ((jLookup k kvs).getD dflt)
  | _ => .error "AttributeError: object has no attribute get"

/-- Embeds `dict.setdefault(k, v)`. -/
def setdefault (kvs : ArgMap) (k : String) (v : Json) : ArgMap :=
  match jLookup k kvs with
  | some _ => kvs
  | none => kvs ++ [(k, v)]

/-- A step result decorated by the orchestrator with the tool name and
rationale (src/agent/data_agent.py lines 107-108). -/
structure ExecutedStep where
  success : Bool
  result : String
  image_path : Option String := none
  data : Json := Json.null
  tool : String
  reason : String
deriving Repr

/-- The `results_text` block of the synthesis prompt
(src/core/llm_client.py lines 168-174), enumerating from 1. -/
def resultsTextFrom : Nat → List ExecutedStep → String
  | _, [] => ""
  | i, r :: rest =>
    "\n### 步骤 " ++ toString i ++ ": " ++ r.tool ++ " \n"
      ++ "**原因**: " ++ r.reason ++ "\n"
      ++ "**结果**: " ++ r.result ++ "\n"
      ++ (match r.image_path with
          | some p => if p ≠ "" then "**图表**: 已生成图表 " ++ p ++ "\n" else ""
          | none => "")
      ++ resultsTextFrom (i + 1) rest

/-- Embeds `LLMClient.summarise_results` (src/core/llm_client.py lines 162-196). -/
def LLMClient.summarise_results (llm : LLMClient) (user_query : String)
    (tool_results : List ExecutedStep) (conversation_history : String) : String :=
  llm.chat
    ("你是欧莱雅集团的智能数据分析助手 BeautyInsight。\n请基于以下分析结果，为用户生成一份专业、易懂的分析报告。\n\n## 对话历史\n"
      ++ (if conversation_history ≠ "" then conversation_history else "无")
      ++ "\n\n## 用户查询\n" ++ user_query
      ++ "\n\n## 分析步骤与结果\n" ++ resultsTextFrom 1 tool_results
      ++ "\n\n## 要求\n1. 用专业但易懂的中文回答\n2. 突出关键数据洞察\n3. 如果有多个分析步骤，综合所有结果给出完整报告\n4. 如果有图表生成，提及图表的关键信息\n5. 适当给出业务建议或进一步分析方向\n6. 格式清晰，使用适当的标题和列表")

/-- Orchestrator cap on plan length (src/agent/data_agent.py line 25). -/
def MAX_STEPS : Nat := 8

/-- Mutable state of the execution loop in `process_query`, plus a ghost
log `calls` recording every `(name, args)` passed to `registry.execute`. -/
structure LoopSt where
  tool_results : List ExecutedStep := []
  images : List String := []
  accumulated_context : String := ""
  calls : List (String × ArgMap) := []
deriving Repr

/-- The argument preparation of the execution loop
(src/agent/data_agent.py lines 97-102): inject the accumulated digest
and the user query as `analysis_results`/`question` defaults for a
report step when context has accumulated, then default the `context`
argument to the conversation history. -/
def prepareArgs (tool_name : String) (args : ArgMap)
    (acc user_query history : String) : ArgMap :=
  let args :=
    if tool_name = "report_generator" ∧ acc ≠ "" then
      setdefault (setdefault args "analysis_results" (Json.str acc))
        "question" (Json.str user_query)
    else args
  match jLookup "context" args with
  | some _ => args
  | none => args ++ [("context", Json.str history)]

/-- One iteration of the execution loop (src/agent/data_agent.py lines
89-115): skip `general_chat` placeholders, prepare the arguments,
execute, decorate, collect image paths, extend the digest. -/
def runStep (reg : ToolRegistry) (history user_query : String)
    (st : LoopSt) (step : Json) : Except String LoopSt := do
  let toolJ ← pyGet step "tool" (Json.str "")
  let argsJ ← pyGet step "args" (Json.obj [])
  let reasonJ ← pyGet step "reason" (Json.str "")
  let tool_name := pyStr toolJ
  let reason := pyStr reasonJ
  if jEqStr toolJ "general_chat" then
    return st
  else do
    let args ← (match argsJ with
      | Json.obj kvs => Except.ok kvs
      | _ => Except.error "TypeError: argument mapping required")
    let args := prepareArgs tool_name args st.accumulated_context user_query history
    let result := reg.execute tool_name args
    let decorated : ExecutedStep :=
      { success := result.success, result := result.result,
        image_path := result.image_path, data := result.data,
        tool := tool_name, reason := reason }
    let images :=
      match result.image_path with
      | some p => if p ≠ "" then st.images ++ [p] else st.images
      | none => st.images
    return { tool_results := st.tool_results ++ [decorated],
             images := images,
             accumulated_context := st.accumulated_context
               ++ "\n\n### " ++ tool_name ++ " (" ++ reason ++ ")\n" ++ result.result,
             calls := st.calls ++ [(tool_name, args)] }

/-- The execution loop over a (pre-truncated) plan. -/
def runSteps (reg : ToolRegistry) (history user_query : String) :
    List Json → LoopSt → Except String LoopSt
  | [], st => .ok st
  | step :: rest, st => do
    let st' ← runStep reg history user_query st step
    runSteps reg history user_query rest st'

/-- What `process_query` returns (src/agent/data_agent.py lines 54-139),
plus the ghost `execCalls` log. -/
structure AgentOutput where
  response : String
  tool_results : List ExecutedStep
  images : List String
  execCalls : List (String × ArgMap)
deriving Repr

/-- The general-chat short-circuit test
(`len(plan) == 1 and plan[0].get("tool") == "general_chat"`, line 79);
the attribute access may raise on a non-dict step. -/
def isGeneralChatPlan (plan : List Json) : Except String Bool :=
  match plan with
  | [step] => do
    let t ← pyGet step "tool" Json.null
    pure (jEqStr t "general_chat")
  | _ => pure false

/-- Embeds `DataAnalysisAgent.process_query` over an explicit plan: everything
after the planning call.  Factored out so that plan-truncation facts can
be stated. -/
def processWithPlan (llm : LLMClient) (registry : ToolRegistry)
    (ctx1 : DialogueContext) (history user_query now : String)
    (plan : List Json) : Except String (AgentOutput × DialogueContext) := do
  let isGeneral ← isGeneralChatPlan plan
  if isGeneral then
    let answer := llm.general_chat user_query
    let ctx2 := ctx1.add_message "assistant" answer
      (some (Json.obj [("type", Json.str "general")])) now
    return ({ response := answer, tool_results := [], images := [],
              execCalls := [] }, ctx2)
  else
    let st ← runSteps registry history user_query (plan.take MAX_STEPS) {}
    let final_response :=
      match st.tool_results with
      | [] => llm.general_chat user_query
      | _ => llm.summarise_results user_query st.tool_results history
    let ctx2 := ctx1.add_message "assistant" final_response
      (some (Json.obj
        [("type", Json.str "analysis"),
         ("tools_used", Json.arr (st.tool_results.map (fun r => Json.str r.tool))),
         ("images", Json.arr (st.images.map Json.str))])) now
    return ({ response := final_response, tool_results := st.tool_results,
              images := st.images, execCalls := st.calls }, ctx2)

/-- Embeds `DataAnalysisAgent.process_query` (src/agent/data_agent.py lines
54-139).  `now` stands for `datetime.now()`. -/
def process_query (llm : LLMClient) (registry : ToolRegistry)
    (ctx : DialogueContext) (data_schema user_query now : String) :
    Except String (AgentOutput × DialogueContext) :=
  let ctx1 := ctx.add_message "user" user_query none now
  let history := ctx1.get_formatted_history
  let plan := llm.plan_tools user_query registry.get_descriptions history data_schema
  processWithPlan llm registry ctx1 history user_query now plan

/-- Column dtype as discriminated by the tools
(`pd.api.types.is_datetime64_any_dtype` / numeric / everything else). -/
inductive Dtype where
  | datetime : Dtype
  | numeric : Dtype
  | text : Dtype
deriving Repr, DecidableEq

/-- The shape of a query-result dataframe that the tools' control flow
depends on: named, typed columns and a row count. -/
structure DataFrame where
  cols : List (String × Dtype)
  nrows : Nat
deriving Repr

/-- pandas `df.empty`: true when either axis has length zero. -/
def DataFrame.pdEmpty (df : DataFrame) : Bool :=
  df.nrows = 0 || df.cols.isEmpty

/-- Python truthiness of a JSON value (`if sql:`, `if not chart_type:`). -/
def pyTruthy : Json → Bool
  | .null => false
  | .bool b => b
  | .num n => n ≠ 0
  | .str s => s ≠ ""
  | .arr xs => !xs.isEmpty
  | .obj kvs => !kvs.isEmpty

/-- Embeds `_extract_sql`, identical staticmethod of the visualization and
statistical tools (src/tools/data_visualization.py lines 122-132,
src/tools/statistical_analysis.py lines 79-89): unwrap an optional
fenced block, then return the text from the first case-insensitive
`SELECT` with trailing semicolons stripped. -/
def extract_sql (text : String) : Option String :=
  let t0 := pyStrip text.data
  let t1 :=
    match splitFirst "```sql".data t0 with
    | some p =>
      pyStrip (match splitFirst "```".data p.2 with
        | some q => q.1
        | none => p.2)
    | none =>
      match splitFirst "```".data t0 with
      | some p =>
        pyStrip (match splitFirst "```".data p.2 with
          | some q => q.1
          | none => p.2)
      | none => t0
  match splitFirst "SELECT".data (pyUpper t1) with
  | some p => some ⟨pyStrip (pyRstripSemi (t1.drop p.1.length))⟩
  | none => none

/-- The chart-type keyword table of `_infer_chart_type`
(src/tools/data_visualization.py lines 159-166), in dict insertion
order. -/
def keywordMap : List (String × List String) :=
  [("pie", ["饼图", "占比", "比例", "构成", "pie"]),
   ("scatter", ["散点", "相关性", "scatter", "关系"]),
   ("histogram", ["直方图", "分布", "频率", "histogram"]),
   ("heatmap", ["热力图", "heatmap", "相关矩阵"]),
   ("line", ["趋势", "变化", "走势", "trend", "折线", "line"]),
   ("bar", ["柱状", "对比", "排名", "bar", "top"])]

/-- The keyword scan of `_infer_chart_type` (lines 167-170): first chart
type one of whose keywords occurs in the lowered question. -/
def findKeyword (q : List Char) : Option String :=
  (keywordMap.find? (fun p => p.2.any (fun kw => pyIn kw.data q))).map (·.1)

/-- Embeds `DataVisualizationTool._infer_chart_type`
(src/tools/data_visualization.py lines 157-177).  The positional access
`df.columns[0]` raises on a column-less frame. -/
def infer_chart_type (df : DataFrame) (question : String) : Except String String :=
  let q := pyLower question.data
  match findKeyword q with
  | some c => .ok c
  | none =>
    match df.cols with
    | [] => .error "IndexError: index 0 is out of bounds"
    | (_, dt) :: _ =>
      if dt = Dtype.datetime then .ok "line"
      else if df.nrows ≤ 15 then .ok "bar"
      else .ok "bar"

/-- Embeds `_chart_type_cn` (lines 302-312). -/
def chart_type_cn (chart_type : String) : String :=
  if chart_type = "line" then "折线图"
  else if chart_type = "bar" then "柱状图"
  else if chart_type = "pie" then "饼图"
  else if chart_type = "scatter" then "散点图"
  else if chart_type = "histogram" then "直方图"
  else if chart_type = "heatmap" then "热力图"
  else "图表"

/-- Embeds `_generate_title` (lines 314-318). -/
def generate_title (question : String) (chart_type : String) : String :=
  if question ≠ "" then ⟨question.data.take 50⟩
  else "数据" ++ chart_type_cn chart_type

/-- Collaborators of `DataVisualizationTool`: the language model, the
database (`_execute_sql_to_df`: SQL execution plus heuristic dtype
coercion, `None` on failure), matplotlib chart rendering
(`_create_chart`: `None` on failure) and the pandas summary
(`_summarise_data`). -/
structure VizEnv where
  chat : String → String
  schema : String
  execSqlToDf : String → Option DataFrame
  createChart : DataFrame → String → String → Option String
  summariseData : DataFrame → String

/-- Embeds `_generate_viz_sql` (src/tools/data_visualization.py lines 101-120). -/
def generate_viz_sql (env : VizEnv) (question : String) : Option String :=
  extract_sql (env.chat
    ("你是一位SQL专家。请为以下可视化需求生成SQL查询。\n\n数据库表结构:\n" ++ env.schema
      ++ "\n\n可视化需求: " ++ question
      ++ "\n\n要求:\n1. SQL结果的第一列应为X轴（通常是时间或分类字段）\n2. 其余列为Y轴数值\n3. 按X轴排序\n4. 只返回SQL语句，不要其他内容\n5. 使用聚合函数时注意GROUP BY"))

/-- The tail of `DataVisualizationTool.execute` once a SQL text and a
dataframe-or-`None` are at hand (lines 76-96). -/
def vizWithDf (env : VizEnv) (question : String) (chart_typeJ : Json)
    (title0 sql : String) (dfOpt : Option DataFrame) : Except String ToolResult :=
  match dfOpt with
  | none =>
    .ok { success := false, result := "查询未返回数据，无法生成可视化",
          data := Json.obj [("sql", Json.str sql)] }
  | some df =>
    if df.pdEmpty then
      .ok { success := false, result := "查询未返回数据，无法生成可视化",
            data := Json.obj [("sql", Json.str sql)] }
    else do
      let chart_type ←
        if pyTruthy chart_typeJ then pure (pyStr chart_typeJ)
        else infer_chart_type df question
      let title := if title0 ≠ "" then title0 else generate_title question chart_type
      match env.createChart df chart_type title with
      | none =>
        pure { success := false, result := "图表生成失败",
               data := Json.obj [("sql", Json.str sql)] }
      | some img =>
        pure { success := true,
               result := "已生成" ++ chart_type_cn chart_type ++ "。\n"
                 ++ env.summariseData df,
               image_path := some img,
               data := Json.obj [("sql", Json.str sql),
                                 ("chart_type", Json.str chart_type),
                                 ("rows", Json.num df.nrows)] }

/-- Embeds `DataVisualizationTool.execute` (src/tools/data_visualization.py
lines 60-96). -/
def viz_execute (env : VizEnv) (args : ArgMap) : Except String ToolResult :=
  let question := pyStr ((jLookup "question" args).getD (Json.str ""))
  let chart_typeJ := (jLookup "chart_type" args).getD Json.null
  let sqlJ := (jLookup "sql" args).getD Json.null
  let title := pyStr ((jLookup "title" args).getD (Json.str ""))
  if pyTruthy sqlJ then
    let sql := pyStr sqlJ
    vizWithDf env question chart_typeJ title sql (env.execSqlToDf sql)
  else if question ≠ "" then
    match generate_viz_sql env question with
    | none => .ok { success := false, result := "无法为该问题生成可视化SQL" }
    | some sql => vizWithDf env question chart_typeJ title sql (env.execSqlToDf sql)
  else
    .ok { success := false, result := "请提供可视化描述或SQL" }

/-- Collaborators of `StatisticalAnalysisTool`: the language model, the
raw database call `execute_sql_df` (whose exceptions propagate, modelled
by `Except`), and the five pandas-backed analysis renderers. -/
structure StatEnv where
  chat : String → String
  schema : String
  execSqlDf : String → Except String DataFrame
  descriptive : DataFrame → String → Except String ToolResult
  correlation : DataFrame → String → Except String ToolResult
  trend : DataFrame → String → Except String ToolResult
  top_n : DataFrame → String → Except String ToolResult
  comparison : DataFrame → String → Except String ToolResult

/-- Embeds `_generate_analysis_sql` (src/tools/statistical_analysis.py lines
65-77). -/
def generate_analysis_sql (env : StatEnv) (question analysis_type : String) :
    Option String :=
  extract_sql (env.chat
    ("你是SQL专家。为以下统计分析需求生成SQL。\n\n表结构:\n" ++ env.schema
      ++ "\n\n分析需求: " ++ question ++ "\n分析类型: " ++ analysis_type
      ++ "\n\n只返回SQL，不要其他说明。"))

/-- Embeds `_safe_query` (lines 91-96): `None` on any database exception. -/
def stat_safe_query (env : StatEnv) (sql : String) : Option DataFrame :=
  match env.execSqlDf sql with
  | .ok df => some df
  | .error _ => none

/-- The dispatch tail of `StatisticalAnalysisTool.execute` (lines 48-62). -/
def statDispatch (env : StatEnv) (analysis_type : String) (df : DataFrame)
    (question : String) : Except String ToolResult :=
  if df.pdEmpty then .ok { success := false, result := "查询结果为空" }
  else if analysis_type = "descriptive" then env.descriptive df question
  else if analysis_type = "correlation" then env.correlation df question
  else if analysis_type = "trend" then env.trend df question
  else if analysis_type = "top_n" then env.top_n df question
  else if analysis_type = "comparison" then env.comparison df question
  else env.descriptive df question

/-- Embeds `StatisticalAnalysisTool.execute` (src/tools/statistical_analysis.py
lines 31-62). -/
def stat_execute (env : StatEnv) (args : ArgMap) : Except String ToolResult := do
  let question := pyStr ((jLookup "question" args).getD (Json.str ""))
  let analysis_type := pyStr ((jLookup "analysis_type" args).getD (Json.str "descriptive"))
  let sqlJ := (jLookup "sql" args).getD Json.null
  if pyTruthy sqlJ then do
    let df ← env.execSqlDf (pyStr sqlJ)
    statDispatch env analysis_type df question
  else if question ≠ "" then
    match generate_analysis_sql env question analysis_type with
    | none => .ok { success := false, result := "无法生成分析SQL" }
    | some sql =>
      match stat_safe_query env sql with
      | none => .ok { success := false, result := "SQL执行失败: " ++ sql }
      | some df => statDispatch env analysis_type df question
  else
    .ok { success := false, result := "请提供分析需求" }

/-- Wrapping a planner payload in a ```json fenced block. -/
def wrapJsonFence (s : String) : String := "```json\n" ++ s ++ "\n```"

/-- Wrapping a planner payload in a plain ``` fenced block. -/
def wrapPlainFence (s : String) : String := "```\n" ++ s ++ "\n```"

/-- Concrete tool whose `execute` raises, for exercising fault isolation. -/
def wit_failing_tool : Tool :=
  { name := "statistical_analysis", execute := fun _ => .error "boom" }

/-- Concrete tool whose `execute` succeeds. -/
def wit_ok_tool : Tool :=
  { name := "sql_query", execute := fun _ => .ok { success := true, result := "共10行数据" } }

/-- Concrete two-tool registry. -/
def wit_registry : ToolRegistry := ⟨[wit_ok_tool, wit_failing_tool]⟩

/-- Oracle answering every prompt with a single general-chat plan. -/
def wit_llm_general : LLMClient :=
  ⟨fun _ => "[\x7b\"tool\": \"general_chat\", \"args\": \x7b\"message\": \"你好\"\x7d, \"reason\": \"问候\"\x7d]"⟩

/-- A nine-step plan payload. -/
def wit_nine_step_plan : String :=
  "[" ++ String.intercalate ", "
    (List.replicate 9 "\x7b\"tool\": \"sql_query\", \"args\": \x7b\x7d, \"reason\": \"查询\"\x7d")
  ++ "]"

/-- Oracle answering every prompt with the nine-step plan. -/
def wit_llm_nine : LLMClient := ⟨fun _ => wit_nine_step_plan⟩

/-- Visualization collaborators: a model reply with no SQL in it, a
database returning an empty frame, a failing chart sink. -/
def wit_viz_env : VizEnv :=
  { chat := fun _ => "抱歉，我无法帮助。",
    schema := "orders(id)",
    execSqlToDf := fun _ => some ⟨[("d", Dtype.text)], 0⟩,
    createChart := fun _ _ _ => none,
    summariseData := fun _ => "" }

/-- Statistical-analysis collaborators mirroring `wit_viz_env`. -/
def wit_stat_env : StatEnv :=
  { chat := fun _ => "抱歉，我无法帮助。",
    schema := "orders(id)",
    execSqlDf := fun _ => .ok ⟨[("a", Dtype.numeric)], 0⟩,
    descriptive := fun _ _ => .ok { success := true, result := "统计" },
    correlation := fun _ _ => .ok { success := true, result := "相关" },
    trend := fun _ _ => .ok { success := true, result := "趋势" },
    top_n := fun _ _ => .ok { success := true, result := "排名" },
    comparison := fun _ _ => .ok { success := true, result := "对比" } }

/-- Dialogue context at capacity zero with an open session. -/
def wit_ctx0 : DialogueContext :=
  { messages := [], max_history := 0,
    current_session_id := some "s", session_start_time := some "s" }

/-- One-step plan prefix executing the succeeding query tool. -/
def wit_pre : List Json :=
  [Json.obj [("tool", Json.str "sql_query"), ("args", Json.obj []),
             ("reason", Json.str "r")]]

/-- A report step whose planner-supplied args are empty. -/
def wit_report_step : List (String × Json) :=
  [("tool", Json.str "report_generator"), ("args", Json.obj []),
   ("reason", Json.str "报告")]

/-- The loop state after executing `wit_pre` against `wit_registry`. -/
def wit_pre_state : LoopSt :=
  { tool_results :=
      [{ success := true, result := "共10行数据", image_path := none,
         data := Json.null, tool := "sql_query", reason := "r" }],
    images := [],
    accumulated_context := "\n\n### sql_query (r)\n共10行数据",
    calls := [("sql_query", [("context", Json.str "h")])] }

/-- Dialogue context at capacity two, full, with an open session. -/
def wit_ctx2 : DialogueContext :=
  { messages :=
      [{ role := "user", content := "a", timestamp := "t1", metadata := Json.obj [] },
       { role := "assistant", content := "b", timestamp := "t2", metadata := Json.obj [] }],
    max_history := 2, current_session_id := some "s", session_start_time := some "s" }

/-! ### Theorems -/

/-- All characters are JSON whitespace. -/
def allJsonWs (cs : List Char) : Prop := ∀ c ∈ cs, isJsonWs c = true

/-- Consumption shape of a value parse: leading whitespace, then a body
whose first and last characters are not whitespace (and are the brackets
for an array), then the remainder. -/
def ShapeV (cs : List Char) (v : Json) (rest : List Char) : Prop :=
  ∃ ws body, cs = ws ++ body ++ rest ∧ allJsonWs ws ∧ body ≠ [] ∧
    (∀ c, body.head? = some c → isPyWs c = false) ∧
    (∀ c, body.getLast? = some c → isPyWs c = false) ∧
    (∀ xs, v = Json.arr xs → body.head? = some '[' ∧ body.getLast? = some ']')

/-- Consumption shape of an element/member tail parse: a nonempty body
ending at the closing delimiter. -/
def ShapeTail (cs : List Char) (rest : List Char) (last : Char) : Prop :=
  ∃ body, cs = body ++ rest ∧ body ≠ [] ∧ body.getLast? = some last

/-- Every JSON whitespace character is Python whitespace. -/
theorem isPyWs_of_isJsonWs {c : Char} (h : isJsonWs c = true) : isPyWs c = true := by
  simp only [isJsonWs, Bool.or_eq_true, decide_eq_true_eq] at h
  simp only [isPyWs, Bool.or_eq_true, decide_eq_true_eq]
  tauto

/-- C1: for every tool name and argument mapping, `registry.execute`
never raises and always returns a result with a boolean success flag and
a result text (immediate from its total type `ToolRegistry → String →
ArgMap → ToolResult`): unregistered names yield `success=false` with a
descriptive message, registered names delegate to the tool's
`safe_execute`, which converts any exception of `execute` into a
`success=false` result whose message names the tool. -/
theorem registry_execute_fault_isolation (r : ToolRegistry) (name : String)
    (args : ArgMap) :
    (r.get name = none →
      r.execute name args = { success := false, result := "未找到工具: " ++ name }) ∧
    (∀ t, r.get name = some t →
      r.execute name args = t.safe_execute args ∧
      (∀ res, t.execute args = .ok res → t.safe_execute args = res) ∧
      (∀ e, t.execute args = .error e →
        t.safe_execute args =
          { success := false, result := "工具 " ++ t.name ++ " 执行失败: " ++ e })) := by
  refine ⟨fun h => ?_, fun t h => ?_⟩
  · simp only [ToolRegistry.execute, h]
  · refine ⟨by simp only [ToolRegistry.execute, h], fun res he => ?_, fun e he => ?_⟩
    · simp only [Tool.safe_execute, he]
    · simp only [Tool.safe_execute, he]

/-- Witness for C1 at a concrete registry: an unregistered lookup and a
tool that raises. -/
theorem registry_execute_fault_isolation_witness :
    wit_registry.execute "nope" [] = { success := false, result := "未找到工具: nope" } ∧
    wit_registry.execute "statistical_analysis" [] =
      { success := false, result := "工具 statistical_analysis 执行失败: boom" } := by
  have h1 := (registry_execute_fault_isolation wit_registry "nope" []).1 rfl
  have h2 := (registry_execute_fault_isolation wit_registry "statistical_analysis" []).2
    wit_failing_tool rfl
  exact ⟨h1, h2.1.trans (h2.2.2 "boom" rfl)⟩

/-- C2: when the first tier (fence-stripped strict parse) and the second
tier (first bracketed substring) both fail, `_parse_tool_plan` returns
exactly one `general_chat` step whose `args.message` is the raw
response; it never raises (immediate from its total type). -/
theorem parse_tool_plan_degrades_to_general_chat (response : String)
    (h1 : jsonParse (tier1Text response) = none)
    (h2 : ∀ t, extractBrackets response.data = some t → jsonParse t = none) :
    parse_tool_plan response =
      [Json.obj [("tool", Json.str "general_chat"),
                 ("args", Json.obj [("message", Json.str response)]),
                 ("reason", Json.str "解析失败，作为普通对话处理")]] := by
  cases hx : extractBrackets response.data with
  | none => simp only [parse_tool_plan, h1, hx, fallbackStep]
  | some t => simp only [parse_tool_plan, h1, hx, h2 t hx, fallbackStep]

/-- Witness for C2: a plain greeting fails both tiers. -/
theorem parse_tool_plan_degrades_witness :
    jsonParse (tier1Text "你好呀") = none ∧
    parse_tool_plan "你好呀" =
      [Json.obj [("tool", Json.str "general_chat"),
                 ("args", Json.obj [("message", Json.str "你好呀")]),
                 ("reason", Json.str "解析失败，作为普通对话处理")]] := by
  refine ⟨rfl, parse_tool_plan_degrades_to_general_chat "你好呀" rfl ?_⟩
  intro t ht
  rw [show extractBrackets ("你好呀" : String).data = none from rfl] at ht
  exact Option.noConfusion ht

/-- Length of a Python `[-n:]` slice for positive `n`. -/
theorem pyLastSlice_length (n : Nat) (xs : List Message) (h : n ≠ 0) :
    (pyLastSlice n xs).length = min n xs.length := by
  simp only [pyLastSlice, if_neg h, List.length_drop]
  omega

/-- Counterexample to C6 as stated: with `max_history = 0` (a state with
exactly `max_history` messages), `add_message` leaves the history at
length 1 because Python's `messages[-0:]` slice keeps the whole list, so
the "at most `max_history` messages" invariant is not preserved. -/
theorem add_message_overflows_at_capacity_zero :
    wit_ctx0.messages.length = wit_ctx0.max_history ∧
    (wit_ctx0.add_message "user" "你好" none "t").messages.length = 1 ∧
    ¬ (wit_ctx0.add_message "user" "你好" none "t").messages.length ≤
        wit_ctx0.max_history := by
  refine ⟨rfl, rfl, by decide⟩

/-- C6 (amended): for `max_history ≥ 1` — as with the default 50 —
`add_message` preserves the bound `length ≤ max_history`, and on a
context with an open session holding exactly `max_history` messages it
evicts exactly the oldest message, preserving the relative order of the
rest. -/
theorem add_message_bounded_and_evicts
    (ctx : DialogueContext) (role content : String) (md : Option Json)
    (now : String) (hpos : 1 ≤ ctx.max_history) :
    (ctx.messages.length ≤ ctx.max_history →
      (ctx.add_message role content md now).messages.length ≤ ctx.max_history) ∧
    (ctx.current_session_id.isSome = true →
      ctx.messages.length = ctx.max_history →
      (ctx.add_message role content md now).messages =
        ctx.messages.drop 1 ++
          [{ role := role, content := content, timestamp := now,
             metadata := md.getD (Json.obj []) }]) := by
  constructor
  · intro hle
    unfold DialogueContext.add_message DialogueContext.start_new_session
    split
    · dsimp only
      split
      · next hgt =>
        rw [pyLastSlice_length _ _ (by omega)]
        simp only [List.length_append, List.length_cons, List.length_nil]
        omega
      · next hgt =>
        simp only [List.length_append, List.length_cons, List.length_nil] at hgt ⊢
        omega
    · dsimp only
      split
      · next hgt =>
        rw [pyLastSlice_length _ _ (by omega)]
        simp only [List.length_append, List.length_cons, List.length_nil]
        omega
      · next hgt =>
        simp only [List.length_append, List.length_cons, List.length_nil] at hgt ⊢
        omega
  · intro hsome hfull
    have hs : ¬ ctx.current_session_id = none := by
      cases h : ctx.current_session_id with
      | none => rw [h] at hsome; exact absurd hsome (by simp)
      | some s => simp
    unfold DialogueContext.add_message
    simp only [if_neg hs]
    have hgt : (ctx.messages ++
        [({ role := role, content := content, timestamp := now,
            metadata := md.getD (Json.obj []) } : Message)]).length > ctx.max_history := by
      simp only [List.length_append, List.length_cons, List.length_nil]
      omega
    rw [if_pos hgt]
    show pyLastSlice ctx.max_history _ = _
    rw [pyLastSlice, if_neg (by omega)]
    have hlen : (ctx.messages ++
        [({ role := role, content := content, timestamp := now,
            metadata := md.getD (Json.obj []) } : Message)]).length - ctx.max_history = 1 := by
      simp only [List.length_append, List.length_cons, List.length_nil]
      omega
    rw [hlen, List.drop_append_of_le_length (by omega)]

/-- Witness for C6 (amended) at capacity 2: appending a third message
drops exactly the first. -/
theorem add_message_bounded_and_evicts_witness :
    (1 ≤ (2 : Nat)) ∧
    (wit_ctx2.add_message "user" "c" none "t3").messages =
      [{ role := "assistant", content := "b", timestamp := "t2", metadata := Json.obj [] },
       { role := "user", content := "c", timestamp := "t3", metadata := Json.obj [] }] := by
  refine ⟨by decide, ?_⟩
  have h := (add_message_bounded_and_evicts wit_ctx2 "user" "c" none "t3"
    (by decide)).2 rfl rfl
  simpa [wit_ctx2] using h

/-- C9: with no chart-type keyword in the lowered question and a
non-datetime first column, `_infer_chart_type` returns `"bar"` whatever
the row count: the `≤ 15` branch and the `else` branch coincide, so the
row-count check is a no-op. -/
theorem infer_chart_type_defaults_to_bar
    (df : DataFrame) (question : String) (nm : String) (dt : Dtype)
    (rest : List (String × Dtype))
    (hcols : df.cols = (nm, dt) :: rest)
    (hdt : dt ≠ Dtype.datetime)
    (hkw : ∀ p ∈ keywordMap, ∀ kw ∈ p.2,
      pyIn kw.data (pyLower question.data) = false) :
    infer_chart_type df question = .ok "bar" := by
  have hfind : findKeyword (pyLower question.data) = none := by
    unfold findKeyword
    rw [List.find?_eq_none.mpr]
    · rfl
    · intro p hp
      simp only [List.any_eq_true, not_exists, not_and]
      intro kw hkw2 hcontra
      rw [hkw p hp kw hkw2] at hcontra
      exact Bool.false_ne_true hcontra
  simp only [infer_chart_type]
  rw [hfind, hcols]
  show (if dt = Dtype.datetime then Except.ok "line"
        else if df.nrows ≤ 15 then Except.ok "bar" else Except.ok "bar") = Except.ok "bar"
  rw [if_neg hdt]
  split <;> rfl

/-- Witness for C9: a keyword-free question over a 20-row text-keyed
frame. -/
theorem infer_chart_type_defaults_to_bar_witness :
    infer_chart_type ⟨[("城市", Dtype.text)], 20⟩ "按城市统计销量" = .ok "bar" :=
  infer_chart_type_defaults_to_bar ⟨[("城市", Dtype.text)], 20⟩ "按城市统计销量"
    "城市" Dtype.text [] rfl (by decide) (by decide)

/-- C8: in the visualization and statistical-analysis tools, a failed
SQL extraction on the question path, or a query whose dataframe has zero
rows, short-circuits to a `success=false` result whose `image_path` is
absent (the record defaults leave it `none`), without touching the
render/analysis stages. -/
theorem viz_stat_short_circuit :
    (∀ (env : VizEnv) (args : ArgMap),
      pyTruthy ((jLookup "sql" args).getD Json.null) = false →
      pyStr ((jLookup "question" args).getD (Json.str "")) ≠ "" →
      generate_viz_sql env (pyStr ((jLookup "question" args).getD (Json.str ""))) = none →
      viz_execute env args = .ok { success := false, result := "无法为该问题生成可视化SQL" }) ∧
    (∀ (env : VizEnv) (args : ArgMap) (df : DataFrame),
      pyTruthy ((jLookup "sql" args).getD Json.null) = true →
      env.execSqlToDf (pyStr ((jLookup "sql" args).getD Json.null)) = some df →
      df.nrows = 0 →
      viz_execute env args =
        .ok { success := false, result := "查询未返回数据，无法生成可视化",
              data := Json.obj
                [("sql", Json.str (pyStr ((jLookup "sql" args).getD Json.null)))] }) ∧
    (∀ (env : StatEnv) (args : ArgMap),
      pyTruthy ((jLookup "sql" args).getD Json.null) = false →
      pyStr ((jLookup "question" args).getD (Json.str "")) ≠ "" →
      generate_analysis_sql env (pyStr ((jLookup "question" args).getD (Json.str "")))
        (pyStr ((jLookup "analysis_type" args).getD (Json.str "descriptive"))) = none →
      stat_execute env args = .ok { success := false, result := "无法生成分析SQL" }) ∧
    (∀ (env : StatEnv) (args : ArgMap) (df : DataFrame),
      pyTruthy ((jLookup "sql" args).getD Json.null) = true →
      env.execSqlDf (pyStr ((jLookup "sql" args).getD Json.null)) = .ok df →
      df.nrows = 0 →
      stat_execute env args = .ok { success := false, result := "查询结果为空" }) := by
  refine ⟨fun env args h1 h2 h3 => ?_, fun env args df h1 h2 h3 => ?_,
          fun env args h1 h2 h3 => ?_, fun env args df h1 h2 h3 => ?_⟩
  · simp only [viz_execute, h1, h3, if_pos h2, Bool.false_eq_true, if_false]
  · have hemp : df.pdEmpty = true := by
      simp only [DataFrame.pdEmpty, h3]
      simp
    simp only [viz_execute, h1, if_true, h2, vizWithDf, hemp]
  · simp only [stat_execute, h1, h3, if_pos h2, Bool.false_eq_true, if_false]
  · have hemp : df.pdEmpty = true := by
      simp only [DataFrame.pdEmpty, h3]
      simp
    simp only [stat_execute, h1, if_true, h2, statDispatch]
    rw [show ∀ (x : DataFrame) (f : DataFrame → Except String ToolResult),
          (Except.ok x >>= f) = f x from fun _ _ => rfl]
    rw [if_pos hemp]

/-- Witness for C8: concrete environments where the model reply has no
SQL and the database returns zero rows. -/
theorem viz_stat_short_circuit_witness :
    viz_execute wit_viz_env [("question", Json.str "画个图")] =
      .ok { success := false, result := "无法为该问题生成可视化SQL" } ∧
    viz_execute wit_viz_env [("sql", Json.str "SELECT 1")] =
      .ok { success := false, result := "查询未返回数据，无法生成可视化",
            data := Json.obj [("sql", Json.str "SELECT 1")] } ∧
    stat_execute wit_stat_env [("question", Json.str "统计销量")] =
      .ok { success := false, result := "无法生成分析SQL" } ∧
    stat_execute wit_stat_env [("sql", Json.str "SELECT 1")] =
      .ok { success := false, result := "查询结果为空" } :=
  ⟨viz_stat_short_circuit.1 wit_viz_env [("question", Json.str "画个图")]
      rfl (by decide) rfl,
   viz_stat_short_circuit.2.1 wit_viz_env [("sql", Json.str "SELECT 1")]
      ⟨[("d", Dtype.text)], 0⟩ rfl rfl rfl,
   viz_stat_short_circuit.2.2.1 wit_stat_env [("question", Json.str "统计销量")]
      rfl (by decide) rfl,
   viz_stat_short_circuit.2.2.2 wit_stat_env [("sql", Json.str "SELECT 1")]
      ⟨[("a", Dtype.numeric)], 0⟩ rfl rfl rfl⟩

/-- C3: when the planner yields exactly one step whose `tool` field is
`general_chat`, `process_query` answers through `general_chat`, returns
empty `tool_results` and empty `images`, and never calls
`registry.execute` (the ghost call log is empty). -/
theorem process_query_general_chat_short_circuit
    (llm : LLMClient) (reg : ToolRegistry) (ctx : DialogueContext)
    (data_schema user_query now : String) (kvs : List (String × Json))
    (hplan : llm.plan_tools user_query reg.get_descriptions
        ((ctx.add_message "user" user_query none now).get_formatted_history)
        data_schema = [Json.obj kvs])
    (htool : jLookup "tool" kvs = some (Json.str "general_chat")) :
    process_query llm reg ctx data_schema user_query now =
      .ok ({ response := llm.general_chat user_query, tool_results := [],
             images := [], execCalls := [] },
           (ctx.add_message "user" user_query none now).add_message "assistant"
             (llm.general_chat user_query)
             (some (Json.obj [("type", Json.str "general")])) now) := by
  unfold process_query
  dsimp only
  rw [hplan]
  simp only [processWithPlan, isGeneralChatPlan, pyGet, htool, Option.getD_some, jEqStr]
  rfl

/-- Witness for C3: an oracle that always answers with a one-step
general-chat plan. -/
theorem process_query_general_chat_witness :
    process_query wit_llm_general wit_registry {} "schema" "你好" "t" =
      .ok ({ response := wit_llm_general.general_chat "你好", tool_results := [],
             images := [], execCalls := [] },
           (({} : DialogueContext).add_message "user" "你好" none "t").add_message
             "assistant" (wit_llm_general.general_chat "你好")
             (some (Json.obj [("type", Json.str "general")])) "t") := by
  exact process_query_general_chat_short_circuit wit_llm_general wit_registry {}
    "schema" "你好" "t"
    [("tool", Json.str "general_chat"),
     ("args", Json.obj [("message", Json.str "你好")]),
     ("reason", Json.str "问候")]
    (by rfl) (by rfl)

/-- Bind of a successful `Except` computation. -/
theorem ok_bind {α β : Type} (x : α) (f : α → Except String β) :
    (Except.ok x >>= f) = f x := rfl

/-- Bind of a failed `Except` computation. -/
theorem error_bind {α β : Type} (e : String) (f : α → Except String β) :
    ((Except.error e : Except String α) >>= f) = Except.error e := rfl

/-- A plan whose length differs from one is not the general-chat
short-circuit. -/
theorem isGeneralChatPlan_of_length_ne_one (plan : List Json)
    (h : plan.length ≠ 1) : isGeneralChatPlan plan = .ok false := by
  cases plan with
  | nil => rfl
  | cons a as =>
    cases as with
    | nil => exact absurd rfl h
    | cons b bs => rfl

/-- Truncating a long plan to `MAX_STEPS` steps does not change what
`processWithPlan` does. -/
theorem processWithPlan_take (llm : LLMClient) (reg : ToolRegistry)
    (c : DialogueContext) (h q n : String) (p : List Json)
    (hlen : 8 < p.length) :
    processWithPlan llm reg c h q n p =
      processWithPlan llm reg c h q n (p.take MAX_STEPS) := by
  have h1 : isGeneralChatPlan p = .ok false :=
    isGeneralChatPlan_of_length_ne_one p (by omega)
  have h2 : isGeneralChatPlan (p.take MAX_STEPS) = .ok false := by
    apply isGeneralChatPlan_of_length_ne_one
    rw [List.length_take]
    simp only [MAX_STEPS]
    omega
  unfold processWithPlan
  rw [h1, h2, List.take_take, Nat.min_self]

/-- One loop iteration grows the result list and the call log by at most
one entry. -/
theorem runStep_bound (reg : ToolRegistry) (h q : String) (st st1 : LoopSt)
    (step : Json) (hr : runStep reg h q st step = .ok st1) :
    st1.tool_results.length ≤ st.tool_results.length + 1 ∧
    st1.calls.length ≤ st.calls.length + 1 := by
  cases step with
  | obj kvs =>
    simp only [runStep, pyGet, ok_bind] at hr
    split at hr
    · simp only [pure, Except.pure] at hr
      injection hr with hr
      subst hr
      omega
    · cases harg : (jLookup "args" kvs).getD (Json.obj []) with
      | obj kas =>
        rw [harg] at hr
        simp only [ok_bind, pure, Except.pure] at hr
        injection hr with hr
        subst hr
        simp only [List.length_append, List.length_cons, List.length_nil]
        omega
      | null => rw [harg] at hr; rw [error_bind] at hr; exact Except.noConfusion hr
      | bool b => rw [harg] at hr; rw [error_bind] at hr; exact Except.noConfusion hr
      | num m => rw [harg] at hr; rw [error_bind] at hr; exact Except.noConfusion hr
      | str s => rw [harg] at hr; rw [error_bind] at hr; exact Except.noConfusion hr
      | arr xs => rw [harg] at hr; rw [error_bind] at hr; exact Except.noConfusion hr
  | null => exact Except.noConfusion hr
  | bool b => exact Except.noConfusion hr
  | num m => exact Except.noConfusion hr
  | str s => exact Except.noConfusion hr
  | arr xs => exact Except.noConfusion hr

/-- The loop grows the result list and call log by at most the number of
steps. -/
theorem runSteps_bound (reg : ToolRegistry) (h q : String) (steps : List Json)
    (st st' : LoopSt) (hr : runSteps reg h q steps st = .ok st') :
    st'.tool_results.length ≤ st.tool_results.length + steps.length ∧
    st'.calls.length ≤ st.calls.length + steps.length := by
  induction steps generalizing st with
  | nil =>
    injection hr with hr
    subst hr
    simp
  | cons s rest ih =>
    simp only [runSteps] at hr
    cases hstep : runStep reg h q st s with
    | error e => rw [hstep] at hr; exact Except.noConfusion hr
    | ok st1 =>
      rw [hstep] at hr
      have hb := runStep_bound reg h q st st1 s hstep
      have ht := ih st1 hr
      simp only [List.length_cons]
      omega

/-- C4: a plan longer than 8 steps is truncated: `process_query` behaves
exactly as on the first 8 steps, so `registry.execute` is never invoked
for any later step, and at most 8 results and 8 registry calls come
back. -/
theorem process_query_caps_plan_at_eight
    (llm : LLMClient) (reg : ToolRegistry) (ctx : DialogueContext)
    (data_schema user_query now : String) (p : List Json)
    (hplan : llm.plan_tools user_query reg.get_descriptions
        ((ctx.add_message "user" user_query none now).get_formatted_history)
        data_schema = p)
    (hlen : 8 < p.length) :
    process_query llm reg ctx data_schema user_query now =
      processWithPlan llm reg (ctx.add_message "user" user_query none now)
        ((ctx.add_message "user" user_query none now).get_formatted_history)
        user_query now (p.take MAX_STEPS) ∧
    (∀ out ctx2,
      process_query llm reg ctx data_schema user_query now = .ok (out, ctx2) →
      out.tool_results.length ≤ 8 ∧ out.execCalls.length ≤ 8) := by
  have hq : process_query llm reg ctx data_schema user_query now =
      processWithPlan llm reg (ctx.add_message "user" user_query none now)
        ((ctx.add_message "user" user_query none now).get_formatted_history)
        user_query now (p.take MAX_STEPS) := by
    unfold process_query
    dsimp only
    rw [hplan]
    exact processWithPlan_take llm reg _ _ _ _ p hlen
  refine ⟨hq, fun out ctx2 hout => ?_⟩
  rw [hq] at hout
  have h1 : isGeneralChatPlan (p.take MAX_STEPS) = .ok false := by
    apply isGeneralChatPlan_of_length_ne_one
    rw [List.length_take]
    simp only [MAX_STEPS]
    omega
  simp only [processWithPlan, h1, Except.bind] at hout
  cases hrun : runSteps reg
      ((ctx.add_message "user" user_query none now).get_formatted_history)
      user_query ((p.take MAX_STEPS).take MAX_STEPS) {} with
  | error e =>
    rw [hrun] at hout
    exact Except.noConfusion hout
  | ok st =>
    rw [hrun] at hout
    have hb := runSteps_bound reg _ _ _ _ _ hrun
    simp only [List.take_take, List.length_take, min_self] at hb
    injection hout with hout
    have hres : out.tool_results = st.tool_results := by
      have h3 := congrArg (fun x => x.1.tool_results) hout
      simpa using h3.symm
    have hcal : out.execCalls = st.calls := by
      have h3 := congrArg (fun x => x.1.execCalls) hout
      simpa using h3.symm
    rw [hres, hcal]
    simp only [List.length_nil, MAX_STEPS] at hb
    constructor <;> omega

set_option maxRecDepth 100000 in
/-- Witness for C4: an oracle that plans nine identical steps; the run
returns at most eight results and eight registry calls. -/
theorem process_query_caps_plan_at_eight_witness :
    8 < (wit_llm_nine.plan_tools "查销量" wit_registry.get_descriptions
        ((({} : DialogueContext).add_message "user" "查销量" none "t").get_formatted_history)
        "schema").length ∧
    (match process_query wit_llm_nine wit_registry {} "schema" "查销量" "t" with
     | .ok (out, _) => out.tool_results.length ≤ 8 ∧ out.execCalls.length ≤ 8
     | .error _ => False) := by
  have hlen : 8 < (wit_llm_nine.plan_tools "查销量" wit_registry.get_descriptions
      ((({} : DialogueContext).add_message "user" "查销量" none "t").get_formatted_history)
      "schema").length := by decide
  refine ⟨hlen, ?_⟩
  have h := (process_query_caps_plan_at_eight wit_llm_nine wit_registry {} "schema"
    "查销量" "t" _ rfl hlen).2
  cases hpq : process_query wit_llm_nine wit_registry {} "schema" "查销量" "t" with
  | error e => exact Except.noConfusion hpq
  | ok pr =>
    obtain ⟨out, c2⟩ := pr
    exact h out c2 hpq

/-- Lookup through an append resolves in the left part first. -/
theorem jLookup_append (k : String) (kvs rest : ArgMap) :
    jLookup k (kvs ++ rest) =
      (match jLookup k kvs with
       | some v => some v
       | none => jLookup k rest) := by
  induction kvs with
  | nil => rfl
  | cons p t ih =>
    obtain ⟨k', v'⟩ := p
    by_cases h : k' = k
    · simp [jLookup, h]
    · simp [jLookup, h, ih]

/-- A key already bound survives `setdefault` with any key. -/
theorem jLookup_setdefault_some (kvs : ArgMap) (k k2 : String)
    (v w : Json) (h : jLookup k kvs = some w) :
    jLookup k (setdefault kvs k2 v) = some w := by
  unfold setdefault
  cases h2 : jLookup k2 kvs with
  | some u => exact h
  | none => rw [jLookup_append, h]

/-- Filling an absent key with `setdefault` binds it. -/
theorem jLookup_setdefault_self (kvs : ArgMap) (k : String) (v : Json)
    (h : jLookup k kvs = none) :
    jLookup k (setdefault kvs k v) = some v := by
  unfold setdefault
  rw [h, jLookup_append, h]
  simp [jLookup]

/-- Other keys stay absent after `setdefault`. -/
theorem jLookup_setdefault_none (kvs : ArgMap) (k k2 : String) (v : Json)
    (h : jLookup k kvs = none) (hne : k2 ≠ k) :
    jLookup k (setdefault kvs k2 v) = none := by
  unfold setdefault
  cases h2 : jLookup k2 kvs with
  | some u => exact h
  | none =>
    rw [jLookup_append, h]
    simp [jLookup, hne]

/-- For a report step after accumulated context, `prepareArgs` injects
the digest as `analysis_results` (when the planner omitted it) and the
user query as `question` (when omitted). -/
theorem prepareArgs_report (argsKvs : ArgMap) (acc q hist : String)
    (hacc : acc ≠ "")
    (hnoar : jLookup "analysis_results" argsKvs = none) :
    jLookup "analysis_results" (prepareArgs "report_generator" argsKvs acc q hist) =
      some (Json.str acc) ∧
    (jLookup "question" argsKvs = none →
      jLookup "question" (prepareArgs "report_generator" argsKvs acc q hist) =
        some (Json.str q)) := by
  unfold prepareArgs
  rw [if_pos ⟨rfl, hacc⟩]
  dsimp only
  have h1 : jLookup "analysis_results"
      (setdefault (setdefault argsKvs "analysis_results" (Json.str acc))
        "question" (Json.str q)) = some (Json.str acc) :=
    jLookup_setdefault_some _ _ _ _ _
      (jLookup_setdefault_self argsKvs "analysis_results" (Json.str acc) hnoar)
  constructor
  · split
    · exact h1
    · rw [jLookup_append, h1]
  · intro hq
    have h2 : jLookup "question"
        (setdefault (setdefault argsKvs "analysis_results" (Json.str acc))
          "question" (Json.str q)) = some (Json.str q) :=
      jLookup_setdefault_self _ _ _
        (jLookup_setdefault_none argsKvs "question" "analysis_results"
          (Json.str acc) hq (by decide))
    split
    · exact h2
    · rw [jLookup_append, h2]

/-- Splitting the loop over an appended plan. -/
theorem runSteps_append (reg : ToolRegistry) (h q : String)
    (xs ys : List Json) (st : LoopSt) :
    runSteps reg h q (xs ++ ys) st =
      runSteps reg h q xs st >>= runSteps reg h q ys := by
  induction xs generalizing st with
  | nil => rfl
  | cons s rest ih =>
    simp only [List.cons_append, runSteps]
    cases hstep : runStep reg h q st s with
    | error e => simp only [hstep, error_bind]
    | ok st1 =>
      simp only [hstep, ok_bind]
      exact ih st1

/-- One loop iteration preserves "a nonempty result list means a
nonempty digest". -/
theorem runStep_acc_inv (reg : ToolRegistry) (h q : String)
    (st st1 : LoopSt) (step : Json)
    (hr : runStep reg h q st step = .ok st1)
    (hinv : st.tool_results ≠ [] → st.accumulated_context ≠ "") :
    st1.tool_results ≠ [] → st1.accumulated_context ≠ "" := by
  cases step with
  | obj kvs =>
    simp only [runStep, pyGet, ok_bind] at hr
    split at hr
    · simp only [pure, Except.pure] at hr
      injection hr with hr
      subst hr
      exact hinv
    · cases harg : (jLookup "args" kvs).getD (Json.obj []) with
      | obj kas =>
        rw [harg] at hr
        simp only [ok_bind, pure, Except.pure] at hr
        injection hr with hr
        subst hr
        intro _
        intro hemp
        have hlen := congrArg String.length hemp
        simp only [String.length_append] at hlen
        have h6 : ("\n\n### " : String).length = 6 := rfl
        rw [h6] at hlen
        simp at hlen
      | null => rw [harg] at hr; rw [error_bind] at hr; exact Except.noConfusion hr
      | bool b => rw [harg] at hr; rw [error_bind] at hr; exact Except.noConfusion hr
      | num m => rw [harg] at hr; rw [error_bind] at hr; exact Except.noConfusion hr
      | str s => rw [harg] at hr; rw [error_bind] at hr; exact Except.noConfusion hr
      | arr xs => rw [harg] at hr; rw [error_bind] at hr; exact Except.noConfusion hr
  | null => exact Except.noConfusion hr
  | bool b => exact Except.noConfusion hr
  | num m => exact Except.noConfusion hr
  | str s => exact Except.noConfusion hr
  | arr xs => exact Except.noConfusion hr

/-- Over any run of the loop, a nonempty result list implies a nonempty
accumulated digest. -/
theorem runSteps_acc_inv (reg : ToolRegistry) (h q : String)
    (steps : List Json) (st st' : LoopSt)
    (hr : runSteps reg h q steps st = .ok st')
    (hinv : st.tool_results ≠ [] → st.accumulated_context ≠ "") :
    st'.tool_results ≠ [] → st'.accumulated_context ≠ "" := by
  induction steps generalizing st with
  | nil =>
    injection hr with hr
    subst hr
    exact hinv
  | cons s rest ih =>
    simp only [runSteps] at hr
    cases hstep : runStep reg h q st s with
    | error e => rw [hstep] at hr; exact Except.noConfusion hr
    | ok st1 =>
      rw [hstep, ok_bind] at hr
      exact ih st1 hr (runStep_acc_inv reg h q st st1 s hstep hinv)

/-- Executing a report step records a registry call with the prepared
arguments. -/
theorem runStep_report (reg : ToolRegistry) (h q : String) (st1 : LoopSt)
    (stepKvs argsKvs : ArgMap)
    (htool : jLookup "tool" stepKvs = some (Json.str "report_generator"))
    (hargs : jLookup "args" stepKvs = some (Json.obj argsKvs)) :
    ∃ st2, runStep reg h q st1 (Json.obj stepKvs) = .ok st2 ∧
      st2.calls = st1.calls ++
        [("report_generator",
          prepareArgs "report_generator" argsKvs st1.accumulated_context q h)] := by
  simp only [runStep, pyGet, ok_bind, htool, hargs, Option.getD_some]
  rw [show jEqStr (Json.str "report_generator") "general_chat" = false from rfl]
  simp only [Bool.false_eq_true, if_false, ok_bind]
  exact ⟨_, rfl, rfl⟩

/-- C5: when a `report_generator` step follows at least one prior
successful executed step and the planner omitted `analysis_results`, the
orchestrator executes it with `analysis_results` bound to the
accumulated digest of the prior steps (and `question` bound to the user
query when omitted), as recorded by the ghost registry-call log. -/
theorem report_generator_receives_digest
    (reg : ToolRegistry) (history q : String) (pre : List Json)
    (st1 : LoopSt) (stepKvs argsKvs : ArgMap)
    (hrun : runSteps reg history q pre {} = .ok st1)
    (hsucc : ∃ r ∈ st1.tool_results, r.success = true)
    (htool : jLookup "tool" stepKvs = some (Json.str "report_generator"))
    (hargs : jLookup "args" stepKvs = some (Json.obj argsKvs))
    (hnoar : jLookup "analysis_results" argsKvs = none) :
    ∃ st2,
      runSteps reg history q (pre ++ [Json.obj stepKvs]) {} = .ok st2 ∧
      st2.calls = st1.calls ++
        [("report_generator",
          prepareArgs "report_generator" argsKvs st1.accumulated_context q history)] ∧
      jLookup "analysis_results"
        (prepareArgs "report_generator" argsKvs st1.accumulated_context q history) =
          some (Json.str st1.accumulated_context) ∧
      (jLookup "question" argsKvs = none →
        jLookup "question"
          (prepareArgs "report_generator" argsKvs st1.accumulated_context q history) =
            some (Json.str q)) := by
  have hacc : st1.accumulated_context ≠ "" := by
    obtain ⟨r, hr, _⟩ := hsucc
    exact runSteps_acc_inv reg history q pre {} st1 hrun
      (fun hne => absurd rfl hne) (List.ne_nil_of_mem hr)
  obtain ⟨st2, hstep, hcalls⟩ :=
    runStep_report reg history q st1 stepKvs argsKvs htool hargs
  have hp := prepareArgs_report argsKvs st1.accumulated_context q history hacc hnoar
  refine ⟨st2, ?_, hcalls, hp.1, hp.2⟩
  rw [runSteps_append, hrun, ok_bind]
  simp only [runSteps, hstep, ok_bind]

/-- Witness for C5: after one successful `sql_query` step, a report step
with empty planner args is executed with the digest injected. -/
theorem report_generator_receives_digest_witness :
    runSteps wit_registry "h" "查销量" wit_pre {} = .ok wit_pre_state ∧
    (∃ st2,
      runSteps wit_registry "h" "查销量" (wit_pre ++ [Json.obj wit_report_step]) {} =
        .ok st2 ∧
      st2.calls = wit_pre_state.calls ++
        [("report_generator",
          prepareArgs "report_generator" [] wit_pre_state.accumulated_context
            "查销量" "h")] ∧
      jLookup "analysis_results"
        (prepareArgs "report_generator" [] wit_pre_state.accumulated_context
          "查销量" "h") = some (Json.str wit_pre_state.accumulated_context) ∧
      (jLookup "question" ([] : ArgMap) = none →
        jLookup "question"
          (prepareArgs "report_generator" [] wit_pre_state.accumulated_context
            "查销量" "h") = some (Json.str "查销量"))) := by
  refine ⟨rfl, ?_⟩
  exact report_generator_receives_digest wit_registry "h" "查销量" wit_pre
    wit_pre_state wit_report_step [] rfl (by decide) rfl rfl rfl

/-! ### Parser structure lemmas

These establish how `jsonParse` consumes its input: a successful parse
splits the text into leading JSON whitespace, a body whose first and
last characters are never whitespace (brackets for arrays), and the
remainder.  They justify that stripping surrounding whitespace, or
re-extracting the bracketed core, re-parses to the same value — the
facts the fenced-markup claims C7 and C10 turn on. -/

/-- An exhausted whitespace skip means everything was whitespace. -/
theorem allJsonWs_of_dropWhile_nil {cs : List Char}
    (h : cs.dropWhile isJsonWs = []) : allJsonWs cs := by
  induction cs with
  | nil => intro c hc; cases hc
  | cons a t ih =>
    intro c hc
    by_cases ha : isJsonWs a = true
    · rw [List.dropWhile_cons_of_pos ha] at h
      cases hc with
      | head => exact ha
      | tail _ ht => exact ih h c ht
    · rw [List.dropWhile_cons_of_neg ha] at h
      exact absurd h (List.cons_ne_nil a t)

/-- Right cancellation of a common list suffix (explicit form). -/
theorem append_cancel_right_ex (z a c : List Char) (h : a ++ z = c ++ z) : a = c :=
  List.append_cancel_right h

/-- Two decompositions of one list with a longer right part align. -/
theorem align_suffix {u z a rest : List Char} (h : u ++ z = a ++ rest)
    (hlen : z.length ≤ rest.length) : ∃ w, rest = w ++ z ∧ u = a ++ w := by
  have hz : z <:+ a ++ rest := ⟨u, h⟩
  have hr : rest <:+ a ++ rest := ⟨a, rfl⟩
  obtain ⟨w, hw⟩ := List.suffix_of_suffix_length_le hz hr hlen
  refine ⟨w, hw.symm, ?_⟩
  apply append_cancel_right_ex z
  rw [h, ← hw, List.append_assoc]

/-- A parse whose body ends in a non-whitespace character cannot have
consumed into an all-whitespace suffix of the input. -/
theorem consumed_within {u z pre body rest : List Char}
    (h : u ++ z = pre ++ (body ++ rest)) (hbody : body ≠ [])
    (hlast : ∀ c, body.getLast? = some c → isPyWs c = false)
    (hz : allJsonWs z) : z.length ≤ rest.length := by
  by_contra hlt
  push_neg at hlt
  have hrs : rest <:+ u ++ z := ⟨pre ++ body, by rw [List.append_assoc]; exact h.symm⟩
  have hzs : z <:+ u ++ z := ⟨u, rfl⟩
  obtain ⟨w, hw⟩ := List.suffix_of_suffix_length_le hrs hzs (by omega)
  have hwne : w ≠ [] := by
    intro h0
    subst h0
    simp only [List.nil_append] at hw
    subst hw
    omega
  have h2 : (u ++ w) ++ rest = (pre ++ body) ++ rest := by
    rw [← hw] at h
    simpa [List.append_assoc] using h
  have h3 : u ++ w = pre ++ body := List.append_cancel_right h2
  obtain ⟨c, hc⟩ : ∃ c, w.getLast? = some c := by
    cases hb : w.getLast? with
    | none => rw [List.getLast?_eq_none_iff] at hb; exact absurd hb hwne
    | some c => exact ⟨c, rfl⟩
  have hcb : body.getLast? = some c := by
    rw [← List.getLast?_append_of_ne_nil pre hbody, ← h3,
      List.getLast?_append_of_ne_nil u hwne, hc]
  have h4 := hlast c hcb
  have h5 : c ∈ z := by
    rw [← hw]
    exact List.mem_append_left _ (List.mem_of_getLast?_eq_some hc)
  have h6 := isPyWs_of_isJsonWs (hz c h5)
  rw [h4] at h6
  exact Bool.noConfusion h6

/-- Whitespace characters are not digits. -/
theorem not_digit_of_pyWs {c : Char} (h : isPyWs c = true) : isDigitCh c = false := by
  simp only [isPyWs, Bool.or_eq_true, decide_eq_true_eq] at h
  rcases h with ((((h | h) | h) | h) | h) | h <;> subst h <;> decide

/-- Digits are not Python whitespace. -/
theorem not_pyWs_of_digit {c : Char} (h : isDigitCh c = true) : isPyWs c = false := by
  cases hp : isPyWs c with
  | false => rfl
  | true => rw [not_digit_of_pyWs hp] at h; exact Bool.noConfusion h

/-- Non-Python-whitespace characters are not JSON whitespace. -/
theorem not_jsonWs_of_not_pyWs {c : Char} (h : isPyWs c = false) :
    isJsonWs c = false := by
  cases hj : isJsonWs c with
  | false => rfl
  | true => rw [isPyWs_of_isJsonWs hj] at h; exact Bool.noConfusion h

/-- Last element of a cons list with a nonempty tail. -/
theorem getLast?_cons_of_ne_nil {a : Char} {l : List Char} (h : l ≠ []) :
    (a :: l).getLast? = l.getLast? := by
  cases l with
  | nil => exact absurd rfl h
  | cons b t => exact List.getLast?_cons_cons

/-- Shape of a parsed string body, inner induction on a length bound:
the consumed part is nonempty and ends at the closing quote. -/
theorem parseStrBody_shape_aux (n : Nat) : ∀ (cs : List Char),
    cs.length ≤ n → ∀ s rest, parseStrBody cs = some (s, rest) →
    ∃ body, cs = body ++ rest ∧ body ≠ [] ∧ body.getLast? = some '"' := by
  induction n with
  | zero =>
    intro cs hlen s rest h
    cases cs with
    | nil => exact Option.noConfusion h
    | cons c r0 =>
      simp only [List.length_cons] at hlen
      omega
  | succ n ih =>
    intro cs hlen s rest h
    cases cs with
    | nil => exact Option.noConfusion h
    | cons c r0 =>
      rw [parseStrBody.eq_def] at h
      simp only [] at h
      by_cases hc : c = '"'
      · rw [if_pos hc] at h
        injection h with h
        injection h with h1 h2
        subst h2 hc
        exact ⟨['"'], rfl, List.cons_ne_nil _ _, rfl⟩
      · rw [if_neg hc] at h
        by_cases hb : c = '\\'
        · rw [if_pos hb] at h
          cases r0 with
          | nil => exact Option.noConfusion h
          | cons e r2 =>
            dsimp only at h
            by_cases hu : e = 'u'
            · rw [if_pos hu] at h
              match r2, h with
              | h1 :: h2 :: h3 :: h4 :: rest', h =>
                dsimp only at h
                cases hx1 : hexVal h1 with
                | none => rw [hx1] at h; exact Option.noConfusion h
                | some a =>
                cases hx2 : hexVal h2 with
                | none => rw [hx1, hx2] at h; exact Option.noConfusion h
                | some b =>
                cases hx3 : hexVal h3 with
                | none => rw [hx1, hx2, hx3] at h; exact Option.noConfusion h
                | some d3 =>
                cases hx4 : hexVal h4 with
                | none => rw [hx1, hx2, hx3, hx4] at h; exact Option.noConfusion h
                | some d4 =>
                rw [hx1, hx2, hx3, hx4] at h
                cases hrec : parseStrBody rest' with
                | none => rw [hrec] at h; exact Option.noConfusion h
                | some p =>
                  rw [hrec] at h
                  obtain ⟨s', r'⟩ := p
                  injection h with h
                  injection h with hA hB
                  subst hB
                  obtain ⟨body, hbd, hbne, hbl⟩ := ih rest'
                    (by simp at hlen ⊢; omega) s' r' hrec
                  refine ⟨c :: e :: h1 :: h2 :: h3 :: h4 :: body, ?_,
                    List.cons_ne_nil _ _, ?_⟩
                  · rw [hbd]; rfl
                  · rw [getLast?_cons_of_ne_nil (by simp),
                      getLast?_cons_of_ne_nil (by simp),
                      getLast?_cons_of_ne_nil (by simp),
                      getLast?_cons_of_ne_nil (by simp),
                      getLast?_cons_of_ne_nil (by simp),
                      getLast?_cons_of_ne_nil hbne, hbl]
            · rw [if_neg hu] at h
              cases hesc : escChar e with
              | none => rw [hesc] at h; exact Option.noConfusion h
              | some d =>
                rw [hesc] at h
                cases hrec : parseStrBody r2 with
                | none => rw [hrec] at h; exact Option.noConfusion h
                | some p =>
                  rw [hrec] at h
                  obtain ⟨s', r'⟩ := p
                  injection h with h
                  injection h with hA hB
                  subst hB
                  obtain ⟨body, hbd, hbne, hbl⟩ := ih r2
                    (by simp at hlen ⊢; omega) s' r' hrec
                  refine ⟨c :: e :: body, ?_, List.cons_ne_nil _ _, ?_⟩
                  · rw [hbd]; rfl
                  · rw [getLast?_cons_of_ne_nil (by simp),
                      getLast?_cons_of_ne_nil hbne, hbl]
        · rw [if_neg hb] at h
          cases hrec : parseStrBody r0 with
          | none => rw [hrec] at h; exact Option.noConfusion h
          | some p =>
            rw [hrec] at h
            obtain ⟨s', r'⟩ := p
            injection h with h
            injection h with hA hB
            subst hB
            obtain ⟨body, hbd, hbne, hbl⟩ := ih r0
              (by simp at hlen ⊢; omega) s' r' hrec
            refine ⟨c :: body, ?_, List.cons_ne_nil _ _, ?_⟩
            · rw [hbd]; rfl
            · rw [getLast?_cons_of_ne_nil hbne, hbl]

/-- Shape of a parsed string body. -/
theorem parseStrBody_shape (cs : List Char) (s rest : List Char)
    (h : parseStrBody cs = some (s, rest)) :
    ∃ body, cs = body ++ rest ∧ body ≠ [] ∧ body.getLast? = some '"' :=
  parseStrBody_shape_aux cs.length cs le_rfl s rest h

/-- Shape of a parsed numeral: nonempty body whose first and last
characters are not whitespace. -/
theorem parseNum_shape (cs : List Char) (n : Int) (rest : List Char)
    (h : parseNum cs = some (n, rest)) :
    ∃ body, cs = body ++ rest ∧ body ≠ [] ∧
      (∀ c, body.head? = some c → isPyWs c = false) ∧
      (∀ c, body.getLast? = some c → isPyWs c = false) := by
  cases cs with
  | nil => exact Option.noConfusion h
  | cons c r =>
    rw [parseNum.eq_def] at h
    dsimp only at h
    by_cases hm : c = '-'
    · rw [if_pos hm] at h
      cases hds : r.takeWhile isDigitCh with
      | nil => rw [hds] at h; simp at h
      | cons d t =>
        rw [hds, if_neg (List.cons_ne_nil d t)] at h
        injection h with h
        injection h with h1 h2
        subst h2
        refine ⟨c :: r.takeWhile isDigitCh, ?_, List.cons_ne_nil _ _, ?_, ?_⟩
        · show c :: r = c :: (r.takeWhile isDigitCh ++ r.dropWhile isDigitCh)
          rw [List.takeWhile_append_dropWhile]
        · intro c0 hc0
          injection hc0 with hc0
          subst hc0 hm
          decide
        · intro c0 hc0
          rw [getLast?_cons_of_ne_nil (by rw [hds]; exact List.cons_ne_nil d t)] at hc0
          exact not_pyWs_of_digit
            (List.mem_takeWhile_imp (List.mem_of_getLast?_eq_some hc0))
    · rw [if_neg hm] at h
      cases hds : (c :: r).takeWhile isDigitCh with
      | nil => rw [hds] at h; simp at h
      | cons d t =>
        rw [hds, if_neg (List.cons_ne_nil d t)] at h
        injection h with h
        injection h with h1 h2
        subst h2
        refine ⟨(c :: r).takeWhile isDigitCh, ?_, by rw [hds]; exact List.cons_ne_nil d t,
          ?_, ?_⟩
        · rw [List.takeWhile_append_dropWhile]
        · intro c0 hc0
          obtain ⟨ys, hys⟩ := List.head?_eq_some_iff.mp hc0
          exact not_pyWs_of_digit
            (List.mem_takeWhile_imp (by rw [hys]; exact List.mem_cons_self _ _))
        · intro c0 hc0
          exact not_pyWs_of_digit
            (List.mem_takeWhile_imp (List.mem_of_getLast?_eq_some hc0))

/-- An empty input never parses as a value. -/
theorem parseVal_nil (f : Nat) : parseVal f [] = none := by
  cases f with
  | zero => rfl
  | succ f => rfl

/-- An empty input never parses as array elements. -/
theorem parseElems_nil (f : Nat) : parseElems f [] = none := by
  cases f with
  | zero => rfl
  | succ f => rfl

/-- An empty input never parses as object members. -/
theorem parseMembers_nil (f : Nat) : parseMembers f [] = none := by
  cases f with
  | zero => rfl
  | succ f => rfl

/-- Leading JSON whitespace does not affect a value parse. -/
theorem parseVal_skip_ws (f : Nat) (ws x : List Char) (hws : allJsonWs ws) :
    parseVal f (ws ++ x) = parseVal f x := by
  cases f with
  | zero => rfl
  | succ f =>
    rw [parseVal.eq_def, parseVal.eq_def]
    dsimp only
    rw [List.dropWhile_append_of_pos hws]

/-- The first surviving character of a `dropWhile` fails the predicate. -/
theorem dropWhile_head_not {p : Char → Bool} {l : List Char} {c : Char}
    {r : List Char} (h : l.dropWhile p = c :: r) : p c = false := by
  induction l with
  | nil => exact List.noConfusion h
  | cons a t ih =>
    by_cases ha : p a = true
    · rw [List.dropWhile_cons_of_pos ha] at h
      exact ih h
    · rw [List.dropWhile_cons_of_neg ha] at h
      injection h with h1 h2
      subst h1
      exact Bool.not_eq_true _ ▸ (Bool.eq_false_iff.mpr ha)

/-- Splitting an input at the whitespace skip. -/
theorem dropWhile_split {l : List Char} {c : Char} {r : List Char}
    (h : l.dropWhile isJsonWs = c :: r) :
    ∃ tw, l = tw ++ c :: r ∧ allJsonWs tw ∧ isJsonWs c = false := by
  refine ⟨l.takeWhile isJsonWs, by rw [← h, List.takeWhile_append_dropWhile], ?_,
    dropWhile_head_not h⟩
  intro x hx
  exact List.mem_takeWhile_imp hx

/-- The joint consumption-shape property of the three parser levels. -/
theorem parse_shape (f : Nat) :
    (∀ cs v rest, parseVal f cs = some (v, rest) → ShapeV cs v rest) ∧
    (∀ cs xs rest, parseElems f cs = some (xs, rest) → ShapeTail cs rest ']') ∧
    (∀ cs ms rest, parseMembers f cs = some (ms, rest) → ShapeTail cs rest '}') := by
  induction f with
  | zero =>
    exact ⟨fun cs v rest h => Option.noConfusion h,
           fun cs xs rest h => Option.noConfusion h,
           fun cs ms rest h => Option.noConfusion h⟩
  | succ f ih =>
    obtain ⟨ihV, ihE, ihM⟩ := ih
    refine ⟨?_, ?_, ?_⟩
    · -- parseVal
      intro cs v rest h
      rw [parseVal.eq_def] at h
      dsimp only at h
      cases hd : cs.dropWhile isJsonWs with
      | nil => rw [hd] at h; exact Option.noConfusion h
      | cons c r =>
        rw [hd] at h
        dsimp only at h
        obtain ⟨tw, hcs, hws, hcw⟩ := dropWhile_split hd
        by_cases h1 : c = '['
        · rw [if_pos h1] at h
          cases he : parseElems f r with
          | none => rw [he] at h; exact Option.noConfusion h
          | some p =>
            rw [he] at h
            obtain ⟨xs, r1⟩ := p
            injection h with h
            injection h with hv hr
            subst hr
            subst hv
            obtain ⟨bodyE, hbe, hbne, hbl⟩ := ihE r xs r1 he
            subst h1
            refine ⟨tw, '[' :: bodyE, ?_, hws, List.cons_ne_nil _ _, ?_, ?_, ?_⟩
            · rw [hcs, hbe]
              simp [List.append_assoc]
            · intro c0 h0
              injection h0 with h0
              subst h0
              decide
            · intro c0 h0
              rw [getLast?_cons_of_ne_nil hbne, hbl] at h0
              injection h0 with h0
              subst h0
              decide
            · intro xs' _
              exact ⟨rfl, by rw [getLast?_cons_of_ne_nil hbne, hbl]⟩
        · rw [if_neg h1] at h
          by_cases h2 : c = '{'
          · rw [if_pos h2] at h
            cases he : parseMembers f r with
            | none => rw [he] at h; exact Option.noConfusion h
            | some p =>
              rw [he] at h
              obtain ⟨ms, r1⟩ := p
              injection h with h
              injection h with hv hr
              subst hr
              subst hv
              obtain ⟨bodyM, hbe, hbne, hbl⟩ := ihM r ms r1 he
              subst h2
              refine ⟨tw, '{' :: bodyM, ?_, hws, List.cons_ne_nil _ _, ?_, ?_, ?_⟩
              · rw [hcs, hbe]
                simp [List.append_assoc]
              · intro c0 h0
                injection h0 with h0
                subst h0
                decide
              · intro c0 h0
                rw [getLast?_cons_of_ne_nil hbne, hbl] at h0
                injection h0 with h0
                subst h0
                decide
              · intro xs' hxs
                exact Json.noConfusion hxs
          · rw [if_neg h2] at h
            by_cases h3 : c = '"'
            · rw [if_pos h3] at h
              cases he : parseStrBody r with
              | none => rw [he] at h; exact Option.noConfusion h
              | some p =>
                rw [he] at h
                obtain ⟨sc, r1⟩ := p
                injection h with h
                injection h with hv hr
                subst hr
                subst hv
                obtain ⟨bodyS, hbe, hbne, hbl⟩ := parseStrBody_shape r sc r1 he
                subst h3
                refine ⟨tw, '"' :: bodyS, ?_, hws, List.cons_ne_nil _ _, ?_, ?_, ?_⟩
                · rw [hcs, hbe]
                  simp [List.append_assoc]
                · intro c0 h0
                  injection h0 with h0
                  subst h0
                  decide
                · intro c0 h0
                  rw [getLast?_cons_of_ne_nil hbne, hbl] at h0
                  injection h0 with h0
                  subst h0
                  decide
                · intro xs' hxs
                  exact Json.noConfusion hxs
            · rw [if_neg h3] at h
              by_cases h4 : "true".data.isPrefixOf (c :: r)
              · rw [if_pos h4] at h
                injection h with h
                injection h with hv hr
                subst hv
                subst hr
                obtain ⟨u2, hu2⟩ := List.isPrefixOf_iff_prefix.mp h4
                have hdrop : (c :: r).drop 4 = u2 := by
                  rw [← hu2]
                  simp
                refine ⟨tw, "true".data, ?_, hws, by decide, ?_, ?_, ?_⟩
                · rw [hcs, hdrop, ← hu2]
                  simp [List.append_assoc]
                · intro c0 h0
                  rw [show ("true".data.head? = some 't') from rfl] at h0
                  injection h0 with h0
                  subst h0
                  decide
                · intro c0 h0
                  rw [show ("true".data.getLast? = some 'e') from rfl] at h0
                  injection h0 with h0
                  subst h0
                  decide
                · intro xs' hxs
                  exact Json.noConfusion hxs
              · rw [if_neg h4] at h
                by_cases h5 : "false".data.isPrefixOf (c :: r)
                · rw [if_pos h5] at h
                  injection h with h
                  injection h with hv hr
                  subst hv
                  subst hr
                  obtain ⟨u2, hu2⟩ := List.isPrefixOf_iff_prefix.mp h5
                  have hdrop : (c :: r).drop 5 = u2 := by
                    rw [← hu2]
                    simp
                  refine ⟨tw, "false".data, ?_, hws, by decide, ?_, ?_, ?_⟩
                  · rw [hcs, hdrop, ← hu2]
                    simp [List.append_assoc]
                  · intro c0 h0
                    rw [show ("false".data.head? = some 'f') from rfl] at h0
                    injection h0 with h0
                    subst h0
                    decide
                  · intro c0 h0
                    rw [show ("false".data.getLast? = some 'e') from rfl] at h0
                    injection h0 with h0
                    subst h0
                    decide
                  · intro xs' hxs
                    exact Json.noConfusion hxs
                · rw [if_neg h5] at h
                  by_cases h6 : "null".data.isPrefixOf (c :: r)
                  · rw [if_pos h6] at h
                    injection h with h
                    injection h with hv hr
                    subst hv
                    subst hr
                    obtain ⟨u2, hu2⟩ := List.isPrefixOf_iff_prefix.mp h6
                    have hdrop : (c :: r).drop 4 = u2 := by
                      rw [← hu2]
                      simp
                    refine ⟨tw, "null".data, ?_, hws, by decide, ?_, ?_, ?_⟩
                    · rw [hcs, hdrop, ← hu2]
                      simp [List.append_assoc]
                    · intro c0 h0
                      rw [show ("null".data.head? = some 'n') from rfl] at h0
                      injection h0 with h0
                      subst h0
                      decide
                    · intro c0 h0
                      rw [show ("null".data.getLast? = some 'l') from rfl] at h0
                      injection h0 with h0
                      subst h0
                      decide
                    · intro xs' hxs
                      exact Json.noConfusion hxs
                  · rw [if_neg h6] at h
                    cases hn : parseNum (c :: r) with
                    | none => rw [hn] at h; exact Option.noConfusion h
                    | some p =>
                      rw [hn] at h
                      obtain ⟨nv, r1⟩ := p
                      injection h with h
                      injection h with hv hr
                      subst hv
                      subst hr
                      obtain ⟨bodyN, hbe, hbne, hhd, hlast⟩ :=
                        parseNum_shape (c :: r) nv r1 hn
                      refine ⟨tw, bodyN, ?_, hws, hbne, hhd, hlast,
                        fun xs' hxs => Json.noConfusion hxs⟩
                      rw [hcs, hbe]
                      simp [List.append_assoc]
    · -- parseElems
      intro cs xs rest h
      rw [parseElems.eq_def] at h
      dsimp only at h
      cases hd : cs.dropWhile isJsonWs with
      | nil => rw [hd] at h; exact Option.noConfusion h
      | cons c r =>
        rw [hd] at h
        dsimp only at h
        obtain ⟨tw, hcs, hws, hcw⟩ := dropWhile_split hd
        by_cases h1 : c = ']'
        · rw [if_pos h1] at h
          injection h with h
          injection h with hv hr
          subst hr
          subst h1
          refine ⟨tw ++ [']'], ?_, by simp, ?_⟩
          · rw [hcs]
            simp
          · rw [List.getLast?_append_of_ne_nil tw (by simp)]
            rfl
        · rw [if_neg h1] at h
          cases hv : parseVal f (c :: r) with
          | none => rw [hv] at h; exact Option.noConfusion h
          | some p =>
            rw [hv] at h
            obtain ⟨v, r1⟩ := p
            dsimp only at h
            obtain ⟨ws1, bodyV, hbv, hws1, hbvne, _, hbvl, _⟩ := ihV (c :: r) v r1 hv
            cases hd2 : r1.dropWhile isJsonWs with
            | nil => rw [hd2] at h; exact Option.noConfusion h
            | cons c2 r2 =>
              rw [hd2] at h
              dsimp only at h
              obtain ⟨tw2, hr1, hws2, hc2w⟩ := dropWhile_split hd2
              by_cases h2 : c2 = ','
              · rw [if_pos h2] at h
                cases ht : parseElems f r2 with
                | none => rw [ht] at h; exact Option.noConfusion h
                | some q =>
                  rw [ht] at h
                  obtain ⟨vs, r3⟩ := q
                  injection h with h
                  injection h with hxs hr
                  subst hr
                  obtain ⟨bodyT, hbt, hbtne, hbtl⟩ := ihE r2 vs r3 ht
                  refine ⟨tw ++ ws1 ++ bodyV ++ tw2 ++ c2 :: bodyT, ?_, by simp, ?_⟩
                  · rw [hcs, hbv, hr1, hbt]
                    simp [List.append_assoc]
                  · simp only [List.getLast?_append,
                      getLast?_cons_of_ne_nil hbtne, hbtl]
                    rfl
              · by_cases h3 : c2 = ']'
                · rw [if_neg h2, if_pos h3] at h
                  injection h with h
                  injection h with hxs hr
                  subst hr
                  subst h3
                  refine ⟨tw ++ ws1 ++ bodyV ++ tw2 ++ [']'], ?_, by simp, ?_⟩
                  · rw [hcs, hbv, hr1]
                    simp [List.append_assoc]
                  · simp only [List.getLast?_append]
                    rfl
                · rw [if_neg h2, if_neg h3] at h
                  exact Option.noConfusion h
    · -- parseMembers
      intro cs ms rest h
      rw [parseMembers.eq_def] at h
      dsimp only at h
      cases hd : cs.dropWhile isJsonWs with
      | nil => rw [hd] at h; exact Option.noConfusion h
      | cons c r =>
        rw [hd] at h
        dsimp only at h
        obtain ⟨tw, hcs, hws, hcw⟩ := dropWhile_split hd
        by_cases h1 : c = '}'
        · rw [if_pos h1] at h
          injection h with h
          injection h with hv hr
          subst hr
          subst h1
          refine ⟨tw ++ ['}'], ?_, by simp, ?_⟩
          · rw [hcs]
            simp
          · rw [List.getLast?_append_of_ne_nil tw (by simp)]
            rfl
        · rw [if_neg h1] at h
          by_cases h2 : c = '"'
          · rw [if_pos h2] at h
            cases hk : parseStrBody r with
            | none => rw [hk] at h; exact Option.noConfusion h
            | some p =>
              rw [hk] at h
              obtain ⟨kc, r1⟩ := p
              dsimp only at h
              obtain ⟨bodyK, hbk, hbkne, hbkl⟩ := parseStrBody_shape r kc r1 hk
              cases hd2 : r1.dropWhile isJsonWs with
              | nil => rw [hd2] at h; exact Option.noConfusion h
              | cons c2 r2 =>
                rw [hd2] at h
                dsimp only at h
                obtain ⟨tw2, hr1, hws2, hc2w⟩ := dropWhile_split hd2
                by_cases h3 : c2 = ':'
                · rw [if_pos h3] at h
                  cases hv : parseVal f r2 with
                  | none => rw [hv] at h; exact Option.noConfusion h
                  | some q =>
                    rw [hv] at h
                    obtain ⟨v, r3⟩ := q
                    dsimp only at h
                    obtain ⟨ws3, bodyV, hbv, hws3, hbvne, _, hbvl, _⟩ :=
                      ihV r2 v r3 hv
                    cases hd3 : r3.dropWhile isJsonWs with
                    | nil => rw [hd3] at h; exact Option.noConfusion h
                    | cons c3 r4 =>
                      rw [hd3] at h
                      dsimp only at h
                      obtain ⟨tw4, hr3, hws4, hc3w⟩ := dropWhile_split hd3
                      by_cases h4 : c3 = ','
                      · rw [if_pos h4] at h
                        cases ht : parseMembers f r4 with
                        | none => rw [ht] at h; exact Option.noConfusion h
                        | some q2 =>
                          rw [ht] at h
                          obtain ⟨ms2, r5⟩ := q2
                          injection h with h
                          injection h with hms hr
                          subst hr
                          obtain ⟨bodyT, hbt, hbtne, hbtl⟩ := ihM r4 ms2 r5 ht
                          refine ⟨tw ++ c :: bodyK ++ tw2 ++ c2 :: ws3 ++ bodyV
                            ++ tw4 ++ c3 :: bodyT, ?_, by simp, ?_⟩
                          · rw [hcs, hbk, hr1, hbv, hr3, hbt]
                            simp [List.append_assoc]
                          · simp only [List.getLast?_append,
                              getLast?_cons_of_ne_nil hbtne, hbtl]
                            rfl
                      · by_cases h5 : c3 = '}'
                        · rw [if_neg h4, if_pos h5] at h
                          injection h with h
                          injection h with hms hr
                          subst hr
                          subst h5
                          refine ⟨tw ++ c :: bodyK ++ tw2 ++ c2 :: ws3 ++ bodyV
                            ++ tw4 ++ ['}'], ?_, by simp, ?_⟩
                          · rw [hcs, hbk, hr1, hbv, hr3]
                            simp [List.append_assoc]
                          · simp only [List.getLast?_append]
                            rfl
                        · rw [if_neg h4, if_neg h5] at h
                          exact Option.noConfusion h
                · rw [if_neg h3] at h
                  exact Option.noConfusion h
          · rw [if_neg h2] at h
            exact Option.noConfusion h

/-- Fuel adequacy: any fuel exceeding the consumed length reproduces a
successful parse at the three parser levels. -/
theorem parse_fuel_adequate (f : Nat) :
    (∀ cs v rest, parseVal f cs = some (v, rest) →
      ∀ g, cs.length - rest.length < g → parseVal g cs = some (v, rest)) ∧
    (∀ cs xs rest, parseElems f cs = some (xs, rest) →
      ∀ g, cs.length - rest.length < g → parseElems g cs = some (xs, rest)) ∧
    (∀ cs ms rest, parseMembers f cs = some (ms, rest) →
      ∀ g, cs.length - rest.length < g → parseMembers g cs = some (ms, rest)) := by
  induction f with
  | zero =>
    exact ⟨fun cs v rest h => Option.noConfusion h,
           fun cs xs rest h => Option.noConfusion h,
           fun cs ms rest h => Option.noConfusion h⟩
  | succ f ih =>
    obtain ⟨ihV, ihE, ihM⟩ := ih
    refine ⟨?_, ?_, ?_⟩
    · -- parseVal
      intro cs v rest h g hg
      cases g with
      | zero => exact absurd hg (Nat.not_lt_zero _)
      | succ g =>
        rw [parseVal.eq_def] at h
        rw [parseVal.eq_def]
        dsimp only at h ⊢
        cases hd : cs.dropWhile isJsonWs with
        | nil => rw [hd] at h; exact Option.noConfusion h
        | cons c r =>
          rw [hd] at h
          dsimp only at h ⊢
          obtain ⟨tw, hcs, hws, hcw⟩ := dropWhile_split hd
          have l1 := congrArg List.length hcs
          simp only [List.length_append, List.length_cons] at l1
          by_cases h1 : c = '['
          · rw [if_pos h1] at h ⊢
            cases he : parseElems f r with
            | none => rw [he] at h; exact Option.noConfusion h
            | some p =>
              rw [he] at h
              obtain ⟨xs, r1⟩ := p
              simp only [Option.map_some'] at h
              injection h with h
              injection h with hv hr
              subst hr
              subst hv
              obtain ⟨bodyE, hbe, hbne, hbl⟩ := (parse_shape f).2.1 r xs r1 he
              have lb : 0 < bodyE.length := List.length_pos.mpr hbne
              have l2 := congrArg List.length hbe
              simp only [List.length_append] at l2
              rw [ihE r xs r1 he g (by omega)]
              try rfl
          · rw [if_neg h1] at h ⊢
            by_cases h2 : c = '{'
            · rw [if_pos h2] at h ⊢
              cases he : parseMembers f r with
              | none => rw [he] at h; exact Option.noConfusion h
              | some p =>
                rw [he] at h
                obtain ⟨ms, r1⟩ := p
                simp only [Option.map_some'] at h
                injection h with h
                injection h with hv hr
                subst hr
                subst hv
                obtain ⟨bodyM, hbe, hbne, hbl⟩ := (parse_shape f).2.2 r ms r1 he
                have lb : 0 < bodyM.length := List.length_pos.mpr hbne
                have l2 := congrArg List.length hbe
                simp only [List.length_append] at l2
                rw [ihM r ms r1 he g (by omega)]
                try rfl
            · rw [if_neg h2] at h ⊢
              exact h
    · -- parseElems
      intro cs xs rest h g hg
      cases g with
      | zero => exact absurd hg (Nat.not_lt_zero _)
      | succ g =>
        rw [parseElems.eq_def] at h
        rw [parseElems.eq_def]
        dsimp only at h ⊢
        cases hd : cs.dropWhile isJsonWs with
        | nil => rw [hd] at h; exact Option.noConfusion h
        | cons c r =>
          rw [hd] at h
          dsimp only at h ⊢
          obtain ⟨tw, hcs, hws, hcw⟩ := dropWhile_split hd
          have l1 := congrArg List.length hcs
          simp only [List.length_append, List.length_cons] at l1
          have lcr : (c :: r).length = r.length + 1 := by simp
          by_cases h1 : c = ']'
          · rw [if_pos h1] at h ⊢
            exact h
          · rw [if_neg h1] at h ⊢
            cases hv : parseVal f (c :: r) with
            | none => rw [hv] at h; exact Option.noConfusion h
            | some p =>
              rw [hv] at h
              obtain ⟨v, r1⟩ := p
              dsimp only at h
              obtain ⟨ws1, bodyV, hbv, hws1, hbvne, _, hbvl, _⟩ :=
                (parse_shape f).1 (c :: r) v r1 hv
              have lbv : 0 < bodyV.length := List.length_pos.mpr hbvne
              have l2 := congrArg List.length hbv
              simp only [List.length_append, List.length_cons] at l2
              cases hd2 : r1.dropWhile isJsonWs with
              | nil => rw [hd2] at h; exact Option.noConfusion h
              | cons c2 r2 =>
                rw [hd2] at h
                dsimp only at h
                obtain ⟨tw2, hr1, hws2, hc2w⟩ := dropWhile_split hd2
                have l3 := congrArg List.length hr1
                simp only [List.length_append, List.length_cons] at l3
                by_cases h2 : c2 = ','
                · rw [if_pos h2] at h
                  cases ht : parseElems f r2 with
                  | none => rw [ht] at h; exact Option.noConfusion h
                  | some q =>
                    rw [ht] at h
                    obtain ⟨vs, r3⟩ := q
                    simp only [Option.map_some'] at h
                    injection h with h
                    injection h with hxs hr
                    subst hr
                    subst hxs
                    obtain ⟨bodyT, hbt, hbtne, hbtl⟩ := (parse_shape f).2.1 r2 vs r3 ht
                    have lbt : 0 < bodyT.length := List.length_pos.mpr hbtne
                    have l4 := congrArg List.length hbt
                    simp only [List.length_append] at l4
                    rw [ihV (c :: r) v r1 hv g (by omega)]
                    dsimp only
                    rw [hd2]
                    dsimp only
                    rw [if_pos h2]
                    rw [ihE r2 vs r3 ht g (by omega)]
                    try rfl
                · by_cases h3 : c2 = ']'
                  · rw [if_neg h2, if_pos h3] at h
                    injection h with h
                    injection h with hxs hr
                    subst hr
                    subst hxs
                    rw [ihV (c :: r) v r1 hv g (by omega)]
                    dsimp only
                    rw [hd2]
                    dsimp only
                    rw [if_neg h2, if_pos h3]
                    try rfl
                  · rw [if_neg h2, if_neg h3] at h
                    exact Option.noConfusion h
    · -- parseMembers
      intro cs ms rest h g hg
      cases g with
      | zero => exact absurd hg (Nat.not_lt_zero _)
      | succ g =>
        rw [parseMembers.eq_def] at h
        rw [parseMembers.eq_def]
        dsimp only at h ⊢
        cases hd : cs.dropWhile isJsonWs with
        | nil => rw [hd] at h; exact Option.noConfusion h
        | cons c r =>
          rw [hd] at h
          dsimp only at h ⊢
          obtain ⟨tw, hcs, hws, hcw⟩ := dropWhile_split hd
          have l1 := congrArg List.length hcs
          simp only [List.length_append, List.length_cons] at l1
          by_cases h1 : c = '}'
          · rw [if_pos h1] at h ⊢
            exact h
          · rw [if_neg h1] at h ⊢
            by_cases h2 : c = '"'
            · rw [if_pos h2] at h ⊢
              cases hk : parseStrBody r with
              | none => rw [hk] at h; exact Option.noConfusion h
              | some p =>
                rw [hk] at h
                obtain ⟨kc, r1⟩ := p
                dsimp only at h ⊢
                obtain ⟨bodyK, hbk, hbkne, hbkl⟩ := parseStrBody_shape r kc r1 hk
                have lbk : 0 < bodyK.length := List.length_pos.mpr hbkne
                have l2 := congrArg List.length hbk
                simp only [List.length_append] at l2
                cases hd2 : r1.dropWhile isJsonWs with
                | nil => rw [hd2] at h; exact Option.noConfusion h
                | cons c2 r2 =>
                  rw [hd2] at h
                  dsimp only at h ⊢
                  obtain ⟨tw2, hr1, hws2, hc2w⟩ := dropWhile_split hd2
                  have l3 := congrArg List.length hr1
                  simp only [List.length_append, List.length_cons] at l3
                  by_cases h3 : c2 = ':'
                  · rw [if_pos h3] at h ⊢
                    cases hv : parseVal f r2 with
                    | none => rw [hv] at h; exact Option.noConfusion h
                    | some q =>
                      rw [hv] at h
                      obtain ⟨v, r3⟩ := q
                      dsimp only at h
                      obtain ⟨ws3, bodyV, hbv, hws3, hbvne, _, hbvl, _⟩ :=
                        (parse_shape f).1 r2 v r3 hv
                      have lbv : 0 < bodyV.length := List.length_pos.mpr hbvne
                      have l4 := congrArg List.length hbv
                      simp only [List.length_append] at l4
                      cases hd3 : r3.dropWhile isJsonWs with
                      | nil => rw [hd3] at h; exact Option.noConfusion h
                      | cons c3 r4 =>
                        rw [hd3] at h
                        dsimp only at h
                        obtain ⟨tw4, hr3, hws4, hc3w⟩ := dropWhile_split hd3
                        have l5 := congrArg List.length hr3
                        simp only [List.length_append, List.length_cons] at l5
                        by_cases h4 : c3 = ','
                        · rw [if_pos h4] at h
                          cases ht : parseMembers f r4 with
                          | none => rw [ht] at h; exact Option.noConfusion h
                          | some q2 =>
                            rw [ht] at h
                            obtain ⟨ms2, r5⟩ := q2
                            simp only [Option.map_some'] at h
                            injection h with h
                            injection h with hms hr
                            subst hr
                            subst hms
                            obtain ⟨bodyT, hbt, hbtne, hbtl⟩ :=
                              (parse_shape f).2.2 r4 ms2 r5 ht
                            have lbt : 0 < bodyT.length := List.length_pos.mpr hbtne
                            have l6 := congrArg List.length hbt
                            simp only [List.length_append] at l6
                            rw [ihV r2 v r3 hv g (by omega)]
                            dsimp only
                            rw [hd3]
                            dsimp only
                            rw [if_pos h4]
                            rw [ihM r4 ms2 r5 ht g (by omega)]
                            try rfl
                        · by_cases h5 : c3 = '}'
                          · rw [if_neg h4, if_pos h5] at h
                            injection h with h
                            injection h with hms hr
                            subst hr
                            subst hms
                            rw [ihV r2 v r3 hv g (by omega)]
                            dsimp only
                            rw [hd3]
                            dsimp only
                            rw [if_neg h4, if_pos h5]
                            try rfl
                          · rw [if_neg h4, if_neg h5] at h
                            exact Option.noConfusion h
                  · rw [if_neg h3] at h
                    exact Option.noConfusion h
            · rw [if_neg h2] at h
              exact Option.noConfusion h


/-- Negation form of a false whitespace test. -/
theorem ws_false_neg {c : Char} (h : isJsonWs c = false) : ¬ isJsonWs c = true := by
  simp [h]

/-- Digit scans ignore an all-whitespace suffix. -/
theorem takeWhile_digits_append (t z : List Char) (hz : allJsonWs z) :
    (t ++ z).takeWhile isDigitCh = t.takeWhile isDigitCh ∧
    (t ++ z).dropWhile isDigitCh = t.dropWhile isDigitCh ++ z := by
  induction t with
  | nil =>
    simp only [List.nil_append, List.takeWhile_nil, List.dropWhile_nil]
    cases z with
    | nil => exact ⟨rfl, rfl⟩
    | cons a z2 =>
      have ha : isDigitCh a = false :=
        not_digit_of_pyWs (isPyWs_of_isJsonWs (hz a (List.mem_cons_self _ _)))
      constructor
      · rw [List.takeWhile_cons_of_neg (by simp [ha])]
      · rw [List.dropWhile_cons_of_neg (by simp [ha])]
  | cons a t ih =>
    by_cases ha : isDigitCh a = true
    · rw [List.cons_append, List.takeWhile_cons_of_pos ha, List.takeWhile_cons_of_pos ha,
        List.dropWhile_cons_of_pos ha, List.dropWhile_cons_of_pos ha]
      exact ⟨by rw [ih.1], ih.2⟩
    · rw [List.cons_append, List.takeWhile_cons_of_neg ha, List.takeWhile_cons_of_neg ha,
        List.dropWhile_cons_of_neg ha, List.dropWhile_cons_of_neg ha]
      exact ⟨rfl, by rw [List.cons_append]⟩

/-- A literal that ends in a non-whitespace character and is a prefix of
`t ++ z` with `z` all whitespace lies entirely within `t`. -/
theorem literal_prefix_within (lit : List Char) {t z : List Char} (hz : allJsonWs z)
    {e : Char} (hle : lit.getLast? = some e) (hew : isJsonWs e = false)
    (h : lit.isPrefixOf (t ++ z) = true) : ∃ t2, t = lit ++ t2 := by
  obtain ⟨u2, hu2⟩ := List.isPrefixOf_iff_prefix.mp h
  by_cases hlen : z.length ≤ u2.length
  · obtain ⟨t2, _, ht⟩ := align_suffix hu2.symm hlen
    exact ⟨t2, ht⟩
  · push_neg at hlen
    exfalso
    have h1 : u2 <:+ t ++ z := ⟨lit, hu2⟩
    have h2 : z <:+ t ++ z := ⟨t, rfl⟩
    obtain ⟨w3, hw3⟩ := List.suffix_of_suffix_length_le h1 h2 (by omega)
    have hw3ne : w3 ≠ [] := by
      intro h0
      subst h0
      simp only [List.nil_append] at hw3
      subst hw3
      omega
    have hlit : t ++ w3 = lit := by
      apply append_cancel_right_ex u2
      rw [List.append_assoc, hw3, hu2.symm]
    obtain ⟨c, hc⟩ : ∃ c, w3.getLast? = some c := by
      cases hb : w3.getLast? with
      | none => rw [List.getLast?_eq_none_iff] at hb; exact absurd hb hw3ne
      | some c => exact ⟨c, rfl⟩
    have hce : c = e := by
      have := List.getLast?_append_of_ne_nil t hw3ne
      rw [hlit, hle, hc] at this
      injection this with hh
      exact hh.symm
    have hcz : c ∈ z := by
      rw [← hw3]
      exact List.mem_append_left _ (List.mem_of_getLast?_eq_some hc)
    have := hz c hcz
    rw [hce, hew] at this
    exact Bool.noConfusion this


/-- A string-body parse consumes exactly its body: the same body followed by
any other remainder parses to the same characters (inner induction on a
length bound). -/
theorem parseStrBody_repl_aux (n : Nat) : ∀ (cs : List Char), cs.length ≤ n →
    ∀ s rest, parseStrBody cs = some (s, rest) →
    ∀ body, cs = body ++ rest →
    ∀ q, parseStrBody (body ++ q) = some (s, q) := by
  induction n with
  | zero =>
    intro cs hlen s rest h body hb q
    cases cs with
    | nil => exact Option.noConfusion h
    | cons c r0 =>
      simp only [List.length_cons] at hlen
      omega
  | succ n ih =>
    intro cs hlen s rest h body hb q
    cases cs with
    | nil => exact Option.noConfusion h
    | cons c r0 =>
      rw [parseStrBody.eq_def] at h
      simp only [] at h
      by_cases hc : c = '"'
      · rw [if_pos hc] at h
        injection h with h
        injection h with h1 h2
        subst h1
        subst h2
        have hbody : body = [c] :=
          (List.append_cancel_right (show [c] ++ r0 = body ++ r0 from hb)).symm
        subst hbody
        subst hc
        rw [show ['"'] ++ q = '"' :: q from rfl, parseStrBody.eq_def]
        simp
      · rw [if_neg hc] at h
        by_cases hbk : c = '\\'
        · rw [if_pos hbk] at h
          cases r0 with
          | nil => exact Option.noConfusion h
          | cons e r2 =>
            dsimp only at h
            by_cases hu : e = 'u'
            · rw [if_pos hu] at h
              match r2, hb, hlen, h with
              | h1 :: h2 :: h3 :: h4 :: rest', hb, hlen, h =>
                dsimp only at h
                cases hx1 : hexVal h1 with
                | none => rw [hx1] at h; exact Option.noConfusion h
                | some a =>
                cases hx2 : hexVal h2 with
                | none => rw [hx1, hx2] at h; exact Option.noConfusion h
                | some b =>
                cases hx3 : hexVal h3 with
                | none => rw [hx1, hx2, hx3] at h; exact Option.noConfusion h
                | some d3 =>
                cases hx4 : hexVal h4 with
                | none => rw [hx1, hx2, hx3, hx4] at h; exact Option.noConfusion h
                | some d4 =>
                rw [hx1, hx2, hx3, hx4] at h
                cases hrec : parseStrBody rest' with
                | none => rw [hrec] at h; exact Option.noConfusion h
                | some p =>
                  rw [hrec] at h
                  obtain ⟨s', r'⟩ := p
                  injection h with h
                  injection h with hA hB
                  subst hB
                  subst hA
                  obtain ⟨body', hbd, hbne, hbl⟩ := parseStrBody_shape rest' s' r' hrec
                  have hEq : (c :: e :: h1 :: h2 :: h3 :: h4 :: body') ++ r' = body ++ r' := by
                    rw [show (c :: e :: h1 :: h2 :: h3 :: h4 :: body') ++ r'
                        = c :: e :: h1 :: h2 :: h3 :: h4 :: (body' ++ r') from by simp,
                      ← hbd]
                    exact hb
                  have hbody : body = c :: e :: h1 :: h2 :: h3 :: h4 :: body' :=
                    (List.append_cancel_right hEq).symm
                  subst hbody
                  have hIH : parseStrBody (body' ++ q) = some (s', q) := by
                    refine ih rest' ?_ s' r' hrec body' hbd q
                    simp only [List.length_cons] at hlen
                    omega
                  simp only [List.cons_append]
                  rw [parseStrBody.eq_def]
                  simp only []
                  rw [if_neg hc, if_pos hbk, if_pos hu]
                  rw [hx1, hx2, hx3, hx4]
                  simp only []
                  rw [hIH]
                  rfl
            · rw [if_neg hu] at h
              cases hesc : escChar e with
              | none => rw [hesc] at h; exact Option.noConfusion h
              | some d =>
                rw [hesc] at h
                cases hrec : parseStrBody r2 with
                | none => rw [hrec] at h; exact Option.noConfusion h
                | some p =>
                  rw [hrec] at h
                  obtain ⟨s', r'⟩ := p
                  injection h with h
                  injection h with hA hB
                  subst hB
                  subst hA
                  obtain ⟨body', hbd, hbne, hbl⟩ := parseStrBody_shape r2 s' r' hrec
                  have hEq : (c :: e :: body') ++ r' = body ++ r' := by
                    rw [show (c :: e :: body') ++ r' = c :: e :: (body' ++ r') from by simp,
                      ← hbd]
                    exact hb
                  have hbody : body = c :: e :: body' :=
                    (List.append_cancel_right hEq).symm
                  subst hbody
                  have hIH : parseStrBody (body' ++ q) = some (s', q) := by
                    refine ih r2 ?_ s' r' hrec body' hbd q
                    simp only [List.length_cons] at hlen
                    omega
                  simp only [List.cons_append]
                  rw [parseStrBody.eq_def]
                  simp only []
                  rw [if_neg hc, if_pos hbk, if_neg hu]
                  rw [hesc]
                  simp only []
                  rw [hIH]
                  rfl
        · rw [if_neg hbk] at h
          cases hrec : parseStrBody r0 with
          | none => rw [hrec] at h; exact Option.noConfusion h
          | some p =>
            rw [hrec] at h
            obtain ⟨s', r'⟩ := p
            injection h with h
            injection h with hA hB
            subst hB
            subst hA
            obtain ⟨body', hbd, hbne, hbl⟩ := parseStrBody_shape r0 s' r' hrec
            have hEq : (c :: body') ++ r' = body ++ r' := by
              rw [show (c :: body') ++ r' = c :: (body' ++ r') from by simp, ← hbd]
              exact hb
            have hbody : body = c :: body' :=
              (List.append_cancel_right hEq).symm
            subst hbody
            have hIH : parseStrBody (body' ++ q) = some (s', q) := by
              refine ih r0 ?_ s' r' hrec body' hbd q
              simp only [List.length_cons] at hlen
              omega
            simp only [List.cons_append]
            rw [parseStrBody.eq_def]
            simp only []
            rw [if_neg hc, if_neg hbk, hIH]
            rfl


/-- A string-body parse consumes exactly its body (wrapper). -/
theorem parseStrBody_repl {cs s rest : List Char}
    (h : parseStrBody cs = some (s, rest)) {body : List Char}
    (hb : cs = body ++ rest) (q : List Char) :
    parseStrBody (body ++ q) = some (s, q) :=
  parseStrBody_repl_aux cs.length cs le_rfl s rest h body hb q

/-- A numeral parse is unchanged when an all-whitespace suffix is replaced
by another all-whitespace suffix. -/
theorem parseNum_repl {z z' : List Char} (hz : allJsonWs z) (hz' : allJsonWs z')
    {c : Char} {t w : List Char} {n : Int}
    (h : parseNum (c :: (t ++ z)) = some (n, w ++ z)) :
    parseNum (c :: (t ++ z')) = some (n, w ++ z') := by
  rw [parseNum.eq_def] at h
  rw [parseNum.eq_def]
  dsimp only at h ⊢
  by_cases hm : c = '-'
  · rw [if_pos hm] at h ⊢
    obtain ⟨htk, hdr⟩ := takeWhile_digits_append t z hz
    obtain ⟨htk', hdr'⟩ := takeWhile_digits_append t z' hz'
    rw [htk, hdr] at h
    rw [htk', hdr']
    cases hds : t.takeWhile isDigitCh with
    | nil => rw [hds] at h; simp at h
    | cons d ds =>
      rw [hds] at h
      rw [if_neg (List.cons_ne_nil d ds)] at h ⊢
      injection h with h
      injection h with h1 h2
      subst h1
      have hw : t.dropWhile isDigitCh = w := List.append_cancel_right h2
      rw [hw]
  · rw [if_neg hm] at h ⊢
    obtain ⟨htk, hdr⟩ := takeWhile_digits_append (c :: t) z hz
    obtain ⟨htk', hdr'⟩ := takeWhile_digits_append (c :: t) z' hz'
    simp only [List.cons_append] at htk hdr htk' hdr'
    rw [htk, hdr] at h
    rw [htk', hdr']
    cases hds : (c :: t).takeWhile isDigitCh with
    | nil => rw [hds] at h; simp at h
    | cons d ds =>
      rw [hds] at h
      rw [if_neg (List.cons_ne_nil d ds)] at h ⊢
      injection h with h
      injection h with h1 h2
      subst h1
      have hw : (c :: t).dropWhile isDigitCh = w := List.append_cancel_right h2
      rw [hw]


/-- The whitespace skip over `t ++ z` with `z` all whitespace stops inside
`t` whenever it stops at all. -/
theorem split_at_nonws {t z : List Char} (hz : allJsonWs z) {c : Char}
    {r : List Char} (hd : (t ++ z).dropWhile isJsonWs = c :: r) :
    ∃ tw t1, t = tw ++ c :: t1 ∧ allJsonWs tw ∧ isJsonWs c = false ∧
      r = t1 ++ z := by
  obtain ⟨tw, htz, hws, hcw⟩ := dropWhile_split hd
  have hzr : z.length ≤ r.length := by
    by_contra hlt
    push_neg at hlt
    have h1 : c :: r <:+ t ++ z := ⟨tw, htz.symm⟩
    have h2 : z <:+ t ++ z := ⟨t, rfl⟩
    obtain ⟨w3, hw3⟩ := List.suffix_of_suffix_length_le h1 h2
      (by simp only [List.length_cons]; omega)
    have hcz : c ∈ z := by
      rw [← hw3]
      exact List.mem_append_right _ (List.mem_cons_self _ _)
    have := hz c hcz
    rw [hcw] at this
    exact Bool.noConfusion this
  have htz2 : t ++ z = (tw ++ [c]) ++ r := by
    rw [htz]
    simp
  obtain ⟨t1, hr, ht⟩ := align_suffix htz2 hzr
  refine ⟨tw, t1, ?_, hws, hcw, hr⟩
  rw [ht]
  simp


/-- Replacing an all-whitespace suffix of the input by another all-whitespace
suffix preserves a successful parse at all three parser levels, moving the
same suffix replacement onto the remainder. -/
theorem parse_repl (z z' : List Char) (hz : allJsonWs z) (hz' : allJsonWs z')
    (f : Nat) :
    (∀ t v w, parseVal f (t ++ z) = some (v, w ++ z) →
      parseVal f (t ++ z') = some (v, w ++ z')) ∧
    (∀ t xs w, parseElems f (t ++ z) = some (xs, w ++ z) →
      parseElems f (t ++ z') = some (xs, w ++ z')) ∧
    (∀ t ms w, parseMembers f (t ++ z) = some (ms, w ++ z) →
      parseMembers f (t ++ z') = some (ms, w ++ z')) := by
  induction f with
  | zero =>
    exact ⟨fun t v w h => Option.noConfusion h,
           fun t xs w h => Option.noConfusion h,
           fun t ms w h => Option.noConfusion h⟩
  | succ f ih =>
    obtain ⟨ihV, ihE, ihM⟩ := ih
    refine ⟨?_, ?_, ?_⟩
    · -- parseVal
      intro t v w h
      rw [parseVal.eq_def] at h
      rw [parseVal.eq_def]
      dsimp only at h ⊢
      cases hd : (t ++ z).dropWhile isJsonWs with
      | nil => rw [hd] at h; exact Option.noConfusion h
      | cons c r =>
        rw [hd] at h
        dsimp only at h
        obtain ⟨tw, t₁, ht, hws, hcw, hr⟩ := split_at_nonws hz hd
        subst hr
        have hd' : (t ++ z').dropWhile isJsonWs = c :: (t₁ ++ z') := by
          rw [ht, List.append_assoc, List.dropWhile_append_of_pos hws,
            List.cons_append, List.dropWhile_cons_of_neg (ws_false_neg hcw)]
        rw [hd']
        dsimp only
        by_cases h1 : c = '['
        · rw [if_pos h1] at h ⊢
          cases he : parseElems f (t₁ ++ z) with
          | none => rw [he] at h; exact Option.noConfusion h
          | some p =>
            rw [he] at h
            obtain ⟨xs, r1⟩ := p
            simp only [Option.map_some'] at h
            injection h with h
            injection h with hv hrr
            subst hv
            subst hrr
            rw [ihE t₁ xs w he]
            try rfl
        · rw [if_neg h1] at h ⊢
          by_cases h2 : c = '{'
          · rw [if_pos h2] at h ⊢
            cases he : parseMembers f (t₁ ++ z) with
            | none => rw [he] at h; exact Option.noConfusion h
            | some p =>
              rw [he] at h
              obtain ⟨ms, r1⟩ := p
              simp only [Option.map_some'] at h
              injection h with h
              injection h with hv hrr
              subst hv
              subst hrr
              rw [ihM t₁ ms w he]
              try rfl
          · rw [if_neg h2] at h ⊢
            by_cases h3 : c = '"'
            · rw [if_pos h3] at h ⊢
              cases he : parseStrBody (t₁ ++ z) with
              | none => rw [he] at h; exact Option.noConfusion h
              | some p =>
                rw [he] at h
                obtain ⟨sc, r1⟩ := p
                simp only [Option.map_some'] at h
                injection h with h
                injection h with hv hrr
                subst hv
                subst hrr
                obtain ⟨bodyS, hbe, hbne, hbl⟩ :=
                  parseStrBody_shape (t₁ ++ z) sc (w ++ z) he
                have ht₁ : t₁ = bodyS ++ w := by
                  apply append_cancel_right_ex z
                  rw [hbe, List.append_assoc]
                have hq := parseStrBody_repl he hbe (w ++ z')
                have harg : t₁ ++ z' = bodyS ++ (w ++ z') := by
                  rw [ht₁, List.append_assoc]
                rw [harg, hq]
                try rfl
            · rw [if_neg h3] at h ⊢
              by_cases h4 : "true".data.isPrefixOf (c :: (t₁ ++ z))
              · rw [if_pos h4] at h
                injection h with h
                injection h with hv hrr
                subst hv
                have h4' : "true".data.isPrefixOf ((c :: t₁) ++ z) = true := by
                  rw [List.cons_append]
                  exact h4
                obtain ⟨t2, ht2⟩ :=
                  literal_prefix_within "true".data hz (e := 'e') rfl (by decide) h4'
                have hdrop : (c :: (t₁ ++ z)).drop 4 = t2 ++ z := by
                  rw [← List.cons_append, ht2, List.append_assoc,
                    show (4 : Nat) = "true".data.length from rfl]
                  exact List.drop_left _ _
                have hw2 : t2 = w := by
                  apply append_cancel_right_ex z
                  rw [← hdrop, hrr]
                subst hw2
                have h4n : "true".data.isPrefixOf (c :: (t₁ ++ z')) = true := by
                  apply List.isPrefixOf_iff_prefix.mpr
                  exact ⟨t2 ++ z', by
                    rw [← List.append_assoc, ← ht2, List.cons_append]⟩
                rw [if_pos h4n]
                have hdrop' : (c :: (t₁ ++ z')).drop 4 = t2 ++ z' := by
                  rw [← List.cons_append, ht2, List.append_assoc,
                    show (4 : Nat) = "true".data.length from rfl]
                  exact List.drop_left _ _
                rw [hdrop']
              · rw [if_neg h4] at h
                have h4n : ¬ "true".data.isPrefixOf (c :: (t₁ ++ z')) = true := by
                  intro hp
                  apply h4
                  have hp' : "true".data.isPrefixOf ((c :: t₁) ++ z') = true := by
                    rw [List.cons_append]
                    exact hp
                  obtain ⟨t2, ht2⟩ :=
                    literal_prefix_within "true".data hz' (e := 'e') rfl (by decide) hp'
                  apply List.isPrefixOf_iff_prefix.mpr
                  exact ⟨t2 ++ z, by
                    rw [← List.append_assoc, ← ht2, List.cons_append]⟩
                rw [if_neg h4n]
                by_cases h5 : "false".data.isPrefixOf (c :: (t₁ ++ z))
                · rw [if_pos h5] at h
                  injection h with h
                  injection h with hv hrr
                  subst hv
                  have h5' : "false".data.isPrefixOf ((c :: t₁) ++ z) = true := by
                    rw [List.cons_append]
                    exact h5
                  obtain ⟨t2, ht2⟩ :=
                    literal_prefix_within "false".data hz (e := 'e') rfl (by decide) h5'
                  have hdrop : (c :: (t₁ ++ z)).drop 5 = t2 ++ z := by
                    rw [← List.cons_append, ht2, List.append_assoc,
                    show (5 : Nat) = "false".data.length from rfl]
                    exact List.drop_left _ _
                  have hw2 : t2 = w := by
                    apply append_cancel_right_ex z
                    rw [← hdrop, hrr]
                  subst hw2
                  have h5n : "false".data.isPrefixOf (c :: (t₁ ++ z')) = true := by
                    apply List.isPrefixOf_iff_prefix.mpr
                    exact ⟨t2 ++ z', by
                      rw [← List.append_assoc, ← ht2, List.cons_append]⟩
                  rw [if_pos h5n]
                  have hdrop' : (c :: (t₁ ++ z')).drop 5 = t2 ++ z' := by
                    rw [← List.cons_append, ht2, List.append_assoc,
                    show (5 : Nat) = "false".data.length from rfl]
                    exact List.drop_left _ _
                  rw [hdrop']
                · rw [if_neg h5] at h
                  have h5n : ¬ "false".data.isPrefixOf (c :: (t₁ ++ z')) = true := by
                    intro hp
                    apply h5
                    have hp' : "false".data.isPrefixOf ((c :: t₁) ++ z') = true := by
                      rw [List.cons_append]
                      exact hp
                    obtain ⟨t2, ht2⟩ :=
                      literal_prefix_within "false".data hz' (e := 'e') rfl (by decide) hp'
                    apply List.isPrefixOf_iff_prefix.mpr
                    exact ⟨t2 ++ z, by
                      rw [← List.append_assoc, ← ht2, List.cons_append]⟩
                  rw [if_neg h5n]
                  by_cases h6 : "null".data.isPrefixOf (c :: (t₁ ++ z))
                  · rw [if_pos h6] at h
                    injection h with h
                    injection h with hv hrr
                    subst hv
                    have h6' : "null".data.isPrefixOf ((c :: t₁) ++ z) = true := by
                      rw [List.cons_append]
                      exact h6
                    obtain ⟨t2, ht2⟩ :=
                      literal_prefix_within "null".data hz (e := 'l') rfl (by decide) h6'
                    have hdrop : (c :: (t₁ ++ z)).drop 4 = t2 ++ z := by
                      rw [← List.cons_append, ht2, List.append_assoc,
                    show (4 : Nat) = "null".data.length from rfl]
                      exact List.drop_left _ _
                    have hw2 : t2 = w := by
                      apply append_cancel_right_ex z
                      rw [← hdrop, hrr]
                    subst hw2
                    have h6n : "null".data.isPrefixOf (c :: (t₁ ++ z')) = true := by
                      apply List.isPrefixOf_iff_prefix.mpr
                      exact ⟨t2 ++ z', by
                        rw [← List.append_assoc, ← ht2, List.cons_append]⟩
                    rw [if_pos h6n]
                    have hdrop' : (c :: (t₁ ++ z')).drop 4 = t2 ++ z' := by
                      rw [← List.cons_append, ht2, List.append_assoc,
                    show (4 : Nat) = "null".data.length from rfl]
                      exact List.drop_left _ _
                    rw [hdrop']
                  · rw [if_neg h6] at h
                    have h6n : ¬ "null".data.isPrefixOf (c :: (t₁ ++ z')) = true := by
                      intro hp
                      apply h6
                      have hp' : "null".data.isPrefixOf ((c :: t₁) ++ z') = true := by
                        rw [List.cons_append]
                        exact hp
                      obtain ⟨t2, ht2⟩ :=
                        literal_prefix_within "null".data hz' (e := 'l') rfl (by decide) hp'
                      apply List.isPrefixOf_iff_prefix.mpr
                      exact ⟨t2 ++ z, by
                        rw [← List.append_assoc, ← ht2, List.cons_append]⟩
                    rw [if_neg h6n]
                    cases hn : parseNum (c :: (t₁ ++ z)) with
                    | none => rw [hn] at h; exact Option.noConfusion h
                    | some p =>
                      rw [hn] at h
                      obtain ⟨nv, r1⟩ := p
                      simp only [Option.map_some'] at h
                      injection h with h
                      injection h with hv hrr
                      subst hv
                      subst hrr
                      rw [parseNum_repl hz hz' hn]
                      try rfl
    · -- parseElems
      intro t xs w h
      rw [parseElems.eq_def] at h
      rw [parseElems.eq_def]
      dsimp only at h ⊢
      cases hd : (t ++ z).dropWhile isJsonWs with
      | nil => rw [hd] at h; exact Option.noConfusion h
      | cons c r =>
        rw [hd] at h
        dsimp only at h
        obtain ⟨tw, t₁, ht, hws, hcw, hr⟩ := split_at_nonws hz hd
        subst hr
        have hd' : (t ++ z').dropWhile isJsonWs = c :: (t₁ ++ z') := by
          rw [ht, List.append_assoc, List.dropWhile_append_of_pos hws,
            List.cons_append, List.dropWhile_cons_of_neg (ws_false_neg hcw)]
        rw [hd']
        dsimp only
        by_cases h1 : c = ']'
        · rw [if_pos h1] at h ⊢
          injection h with h
          injection h with hxs hrr
          subst hxs
          have htw : t₁ = w := List.append_cancel_right hrr
          rw [htw]
        · rw [if_neg h1] at h ⊢
          cases hv : parseVal f (c :: (t₁ ++ z)) with
          | none => rw [hv] at h; exact Option.noConfusion h
          | some p =>
            rw [hv] at h
            obtain ⟨v, r1⟩ := p
            dsimp only at h
            cases hd2 : r1.dropWhile isJsonWs with
            | nil => rw [hd2] at h; exact Option.noConfusion h
            | cons c2 r2 =>
              rw [hd2] at h
              dsimp only at h
              obtain ⟨tw2, hr1, hws2, hc2w⟩ := dropWhile_split hd2
              by_cases h2 : c2 = ','
              · rw [if_pos h2] at h
                cases ht2 : parseElems f r2 with
                | none => rw [ht2] at h; exact Option.noConfusion h
                | some q2 =>
                  rw [ht2] at h
                  obtain ⟨vs, r3⟩ := q2
                  simp only [Option.map_some'] at h
                  injection h with h
                  injection h with hxs hrr
                  subst hxs
                  subst hrr
                  obtain ⟨bodyT, hbt, hbtne, hbtl⟩ :=
                    (parse_shape f).2.1 r2 vs (w ++ z) ht2
                  have ht2' : parseElems f ((bodyT ++ w) ++ z) = some (vs, w ++ z) := by
                    rw [List.append_assoc, ← hbt]
                    exact ht2
                  have hE' := ihE (bodyT ++ w) vs w ht2'
                  have hr1' : r1 = (tw2 ++ c2 :: (bodyT ++ w)) ++ z := by
                    rw [hr1, hbt]
                    simp
                  have hv' : parseVal f ((c :: t₁) ++ z)
                      = some (v, (tw2 ++ c2 :: (bodyT ++ w)) ++ z) := by
                    rw [List.cons_append, ← hr1']
                    exact hv
                  have hV' := ihV (c :: t₁) v (tw2 ++ c2 :: (bodyT ++ w)) hv'
                  have hV2 : parseVal f (c :: (t₁ ++ z'))
                      = some (v, (tw2 ++ c2 :: (bodyT ++ w)) ++ z') := by
                    rw [← List.cons_append]
                    exact hV'
                  rw [hV2]
                  dsimp only
                  have hd2' : ((tw2 ++ c2 :: (bodyT ++ w)) ++ z').dropWhile isJsonWs
                      = c2 :: ((bodyT ++ w) ++ z') := by
                    rw [List.append_assoc, List.dropWhile_append_of_pos hws2,
                      List.cons_append, List.dropWhile_cons_of_neg (ws_false_neg hc2w)]
                  rw [hd2']
                  dsimp only
                  rw [if_pos h2, hE']
                  try rfl
              · by_cases h3 : c2 = ']'
                · rw [if_neg h2, if_pos h3] at h
                  injection h with h
                  injection h with hxs hrr
                  subst hxs
                  subst hrr
                  have hr1' : r1 = (tw2 ++ c2 :: w) ++ z := by
                    rw [hr1]
                    simp
                  have hv' : parseVal f ((c :: t₁) ++ z)
                      = some (v, (tw2 ++ c2 :: w) ++ z) := by
                    rw [List.cons_append, ← hr1']
                    exact hv
                  have hV' := ihV (c :: t₁) v (tw2 ++ c2 :: w) hv'
                  have hV2 : parseVal f (c :: (t₁ ++ z'))
                      = some (v, (tw2 ++ c2 :: w) ++ z') := by
                    rw [← List.cons_append]
                    exact hV'
                  rw [hV2]
                  dsimp only
                  have hd2' : ((tw2 ++ c2 :: w) ++ z').dropWhile isJsonWs
                      = c2 :: (w ++ z') := by
                    rw [List.append_assoc, List.dropWhile_append_of_pos hws2,
                      List.cons_append, List.dropWhile_cons_of_neg (ws_false_neg hc2w)]
                  rw [hd2']
                  dsimp only
                  rw [if_neg h2, if_pos h3]
                · rw [if_neg h2, if_neg h3] at h
                  exact Option.noConfusion h
    · -- parseMembers
      intro t ms w h
      rw [parseMembers.eq_def] at h
      rw [parseMembers.eq_def]
      dsimp only at h ⊢
      cases hd : (t ++ z).dropWhile isJsonWs with
      | nil => rw [hd] at h; exact Option.noConfusion h
      | cons c r =>
        rw [hd] at h
        dsimp only at h
        obtain ⟨tw, t₁, ht, hws, hcw, hr⟩ := split_at_nonws hz hd
        subst hr
        have hd' : (t ++ z').dropWhile isJsonWs = c :: (t₁ ++ z') := by
          rw [ht, List.append_assoc, List.dropWhile_append_of_pos hws,
            List.cons_append, List.dropWhile_cons_of_neg (ws_false_neg hcw)]
        rw [hd']
        dsimp only
        by_cases h1 : c = '}'
        · rw [if_pos h1] at h ⊢
          injection h with h
          injection h with hms hrr
          subst hms
          have htw : t₁ = w := List.append_cancel_right hrr
          rw [htw]
        · rw [if_neg h1] at h ⊢
          by_cases h2 : c = '"'
          · rw [if_pos h2] at h ⊢
            cases hk : parseStrBody (t₁ ++ z) with
            | none => rw [hk] at h; exact Option.noConfusion h
            | some p =>
              rw [hk] at h
              obtain ⟨kc, r1⟩ := p
              dsimp only at h
              cases hd2 : r1.dropWhile isJsonWs with
              | nil => rw [hd2] at h; exact Option.noConfusion h
              | cons c2 r2 =>
                rw [hd2] at h
                dsimp only at h
                obtain ⟨tw2, hr1, hws2, hc2w⟩ := dropWhile_split hd2
                by_cases h3 : c2 = ':'
                · rw [if_pos h3] at h
                  cases hv : parseVal f r2 with
                  | none => rw [hv] at h; exact Option.noConfusion h
                  | some q1 =>
                    rw [hv] at h
                    obtain ⟨v, r3⟩ := q1
                    dsimp only at h
                    cases hd3 : r3.dropWhile isJsonWs with
                    | nil => rw [hd3] at h; exact Option.noConfusion h
                    | cons c3 r4 =>
                      rw [hd3] at h
                      dsimp only at h
                      obtain ⟨tw4, hr3, hws4, hc3w⟩ := dropWhile_split hd3
                      by_cases h4 : c3 = ','
                      · rw [if_pos h4] at h
                        cases htm : parseMembers f r4 with
                        | none => rw [htm] at h; exact Option.noConfusion h
                        | some q2 =>
                          rw [htm] at h
                          obtain ⟨ms2, r5⟩ := q2
                          simp only [Option.map_some'] at h
                          injection h with h
                          injection h with hms hrr
                          subst hms
                          subst hrr
                          obtain ⟨bodyT, hbt, hbtne, hbtl⟩ :=
                            (parse_shape f).2.2 r4 ms2 (w ++ z) htm
                          have htm' : parseMembers f ((bodyT ++ w) ++ z)
                              = some (ms2, w ++ z) := by
                            rw [List.append_assoc, ← hbt]
                            exact htm
                          have hM' := ihM (bodyT ++ w) ms2 w htm'
                          have hr3' : r3 = (tw4 ++ c3 :: (bodyT ++ w)) ++ z := by
                            rw [hr3, hbt]
                            simp
                          obtain ⟨ws3, bodyV, hbv, hws3, hbvne, _, _, _⟩ :=
                            (parse_shape f).1 r2 v r3 hv
                          have hr2' : r2
                              = (ws3 ++ (bodyV ++ (tw4 ++ c3 :: (bodyT ++ w)))) ++ z := by
                            rw [hbv, hr3']
                            simp
                          have hv2 : parseVal f
                              ((ws3 ++ (bodyV ++ (tw4 ++ c3 :: (bodyT ++ w)))) ++ z)
                              = some (v, (tw4 ++ c3 :: (bodyT ++ w)) ++ z) := by
                            rw [← hr2', ← hr3']
                            exact hv
                          have hV' := ihV _ v (tw4 ++ c3 :: (bodyT ++ w)) hv2
                          have hr1' : r1 = (tw2 ++ c2 ::
                              (ws3 ++ (bodyV ++ (tw4 ++ c3 :: (bodyT ++ w))))) ++ z := by
                            rw [hr1, hr2']
                            simp
                          obtain ⟨bodyK, hbk, hbkne, hbkl⟩ :=
                            parseStrBody_shape (t₁ ++ z) kc r1 hk
                          have ht₁ : t₁ = bodyK ++ (tw2 ++ c2 ::
                              (ws3 ++ (bodyV ++ (tw4 ++ c3 :: (bodyT ++ w))))) := by
                            apply append_cancel_right_ex z
                            rw [hbk, hr1']
                            simp
                          have hq := parseStrBody_repl hk hbk
                            ((tw2 ++ c2 :: (ws3 ++ (bodyV ++ (tw4 ++ c3 ::
                              (bodyT ++ w))))) ++ z')
                          have harg : t₁ ++ z' = bodyK ++ ((tw2 ++ c2 ::
                              (ws3 ++ (bodyV ++ (tw4 ++ c3 :: (bodyT ++ w))))) ++ z') := by
                            rw [ht₁, List.append_assoc]
                          rw [harg, hq]
                          dsimp only
                          have hd2' : ((tw2 ++ c2 :: (ws3 ++ (bodyV ++ (tw4 ++ c3 ::
                              (bodyT ++ w))))) ++ z').dropWhile isJsonWs
                              = c2 :: ((ws3 ++ (bodyV ++ (tw4 ++ c3 ::
                                (bodyT ++ w)))) ++ z') := by
                            rw [List.append_assoc, List.dropWhile_append_of_pos hws2,
                              List.cons_append,
                              List.dropWhile_cons_of_neg (ws_false_neg hc2w)]
                          rw [hd2']
                          dsimp only
                          rw [if_pos h3, hV']
                          dsimp only
                          have hd3' : ((tw4 ++ c3 :: (bodyT ++ w)) ++ z').dropWhile isJsonWs
                              = c3 :: ((bodyT ++ w) ++ z') := by
                            rw [List.append_assoc, List.dropWhile_append_of_pos hws4,
                              List.cons_append,
                              List.dropWhile_cons_of_neg (ws_false_neg hc3w)]
                          rw [hd3']
                          dsimp only
                          rw [if_pos h4, hM']
                          try rfl
                      · by_cases h5 : c3 = '}'
                        · rw [if_neg h4, if_pos h5] at h
                          injection h with h
                          injection h with hms hrr
                          subst hms
                          subst hrr
                          have hr3' : r3 = (tw4 ++ c3 :: w) ++ z := by
                            rw [hr3]
                            simp
                          obtain ⟨ws3, bodyV, hbv, hws3, hbvne, _, _, _⟩ :=
                            (parse_shape f).1 r2 v r3 hv
                          have hr2' : r2 = (ws3 ++ (bodyV ++ (tw4 ++ c3 :: w))) ++ z := by
                            rw [hbv, hr3']
                            simp
                          have hv2 : parseVal f ((ws3 ++ (bodyV ++ (tw4 ++ c3 :: w))) ++ z)
                              = some (v, (tw4 ++ c3 :: w) ++ z) := by
                            rw [← hr2', ← hr3']
                            exact hv
                          have hV' := ihV _ v (tw4 ++ c3 :: w) hv2
                          have hr1' : r1
                              = (tw2 ++ c2 :: (ws3 ++ (bodyV ++ (tw4 ++ c3 :: w)))) ++ z := by
                            rw [hr1, hr2']
                            simp
                          obtain ⟨bodyK, hbk, hbkne, hbkl⟩ :=
                            parseStrBody_shape (t₁ ++ z) kc r1 hk
                          have ht₁ : t₁ = bodyK ++ (tw2 ++ c2 ::
                              (ws3 ++ (bodyV ++ (tw4 ++ c3 :: w)))) := by
                            apply append_cancel_right_ex z
                            rw [hbk, hr1']
                            simp
                          have hq := parseStrBody_repl hk hbk
                            ((tw2 ++ c2 :: (ws3 ++ (bodyV ++ (tw4 ++ c3 :: w)))) ++ z')
                          have harg : t₁ ++ z' = bodyK ++ ((tw2 ++ c2 ::
                              (ws3 ++ (bodyV ++ (tw4 ++ c3 :: w)))) ++ z') := by
                            rw [ht₁, List.append_assoc]
                          rw [harg, hq]
                          dsimp only
                          have hd2' : ((tw2 ++ c2 :: (ws3 ++ (bodyV ++ (tw4 ++ c3 :: w))))
                              ++ z').dropWhile isJsonWs
                              = c2 :: ((ws3 ++ (bodyV ++ (tw4 ++ c3 :: w))) ++ z') := by
                            rw [List.append_assoc, List.dropWhile_append_of_pos hws2,
                              List.cons_append,
                              List.dropWhile_cons_of_neg (ws_false_neg hc2w)]
                          rw [hd2']
                          dsimp only
                          rw [if_pos h3, hV']
                          dsimp only
                          have hd3' : ((tw4 ++ c3 :: w) ++ z').dropWhile isJsonWs
                              = c3 :: (w ++ z') := by
                            rw [List.append_assoc, List.dropWhile_append_of_pos hws4,
                              List.cons_append,
                              List.dropWhile_cons_of_neg (ws_false_neg hc3w)]
                          rw [hd3']
                          dsimp only
                          rw [if_neg h4, if_pos h5]
                        · rw [if_neg h4, if_neg h5] at h
                          exact Option.noConfusion h
                · rw [if_neg h3] at h
                  exact Option.noConfusion h
          · rw [if_neg h2] at h
            exact Option.noConfusion h


/-- Soundness of `splitFirst`: a hit decomposes the input around the pattern. -/
theorem splitFirst_decomp {pat cs a b : List Char}
    (h : splitFirst pat cs = some (a, b)) : cs = a ++ pat ++ b := by
  induction cs generalizing a b with
  | nil => exact Option.noConfusion h
  | cons c rest ih =>
    rw [splitFirst.eq_def] at h
    dsimp only at h
    by_cases hpre : pat.isPrefixOf (c :: rest) = true
    · rw [if_pos hpre] at h
      injection h with h
      injection h with h1 h2
      subst h1
      subst h2
      obtain ⟨u, hu⟩ := List.isPrefixOf_iff_prefix.mp hpre
      have hdrop : (c :: rest).drop pat.length = u := by
        rw [← hu]
        exact List.drop_left _ _
      rw [hdrop, ← hu]
      simp
    · rw [if_neg hpre] at h
      cases hs : splitFirst pat rest with
      | none => rw [hs] at h; exact Option.noConfusion h
      | some p =>
        rw [hs] at h
        obtain ⟨a1, b1⟩ := p
        simp only [Option.map_some'] at h
        injection h with h
        injection h with h1 h2
        subst h1
        subst h2
        rw [ih hs]
        simp

/-- Completeness of `pyIn`: an occurrence makes the membership test true. -/
theorem pyIn_of_decomp {pat : List Char} (hp : pat ≠ []) :
    ∀ (a b cs : List Char), cs = a ++ pat ++ b →
    pyIn pat cs = true := by
  intro a
  induction a with
  | nil =>
    intro b cs hcs
    subst hcs
    cases pat with
    | nil => exact absurd rfl hp
    | cons p0 pt =>
      unfold pyIn
      rw [show ([] : List Char) ++ (p0 :: pt) ++ b = p0 :: (pt ++ b) from by simp,
        splitFirst.eq_def]
      dsimp only
      rw [if_pos (List.isPrefixOf_iff_prefix.mpr ⟨b, by simp⟩)]
      rfl
  | cons c a' ih =>
    intro b cs hcs
    subst hcs
    unfold pyIn
    rw [show (c :: a') ++ pat ++ b = c :: (a' ++ pat ++ b) from by simp,
      splitFirst.eq_def]
    dsimp only
    by_cases hpre : pat.isPrefixOf (c :: (a' ++ pat ++ b)) = true
    · rw [if_pos hpre]
      rfl
    · rw [if_neg hpre]
      have := ih b (a' ++ pat ++ b) rfl
      unfold pyIn at this
      cases hs : splitFirst pat (a' ++ pat ++ b) with
      | none => rw [hs] at this; exact Bool.noConfusion this
      | some p => rfl

/-- A true membership test yields an occurrence. -/
theorem decomp_of_pyIn {pat cs : List Char} (h : pyIn pat cs = true) :
    ∃ a b, cs = a ++ pat ++ b := by
  unfold pyIn at h
  cases hs : splitFirst pat cs with
  | none => rw [hs] at h; exact Bool.noConfusion h
  | some p => exact ⟨p.1, p.2, splitFirst_decomp (by rw [hs])⟩

/-- A false membership test means no split. -/
theorem splitFirst_eq_none {pat cs : List Char} (h : pyIn pat cs = false) :
    splitFirst pat cs = none := by
  unfold pyIn at h
  cases hs : splitFirst pat cs with
  | none => rfl
  | some p => rw [hs] at h; exact Bool.noConfusion h

/-- Splitting at a pattern sitting at the very front. -/
theorem splitFirst_self {pat rest : List Char} (hp : pat ≠ []) :
    splitFirst pat (pat ++ rest) = some ([], rest) := by
  cases pat with
  | nil => exact absurd rfl hp
  | cons p0 pt =>
    rw [List.cons_append, splitFirst.eq_def]
    dsimp only
    rw [if_pos (List.isPrefixOf_iff_prefix.mpr ⟨rest, by simp⟩)]
    rw [show p0 :: (pt ++ rest) = (p0 :: pt) ++ rest from by simp, List.drop_left]

/-- Membership of a pattern is inherited by its prefixes. -/
theorem pyIn_mono_pre {p1 p2 cs : List Char} (hp1 : p1 ≠ []) (hpre : p1 <+: p2)
    (h : pyIn p2 cs = true) : pyIn p1 cs = true := by
  obtain ⟨a, b, hab⟩ := decomp_of_pyIn h
  obtain ⟨t, ht⟩ := hpre
  exact pyIn_of_decomp hp1 a (t ++ b) cs
    (by rw [hab, ← ht]; simp [List.append_assoc])

/-- `pyStrip` yields an infix of its input. -/
theorem pyStrip_infix (x : List Char) : ∃ a b, x = a ++ pyStrip x ++ b := by
  have h1 : ∀ (y : List Char),
      y = (y.reverse.dropWhile isPyWs).reverse ++ (y.reverse.takeWhile isPyWs).reverse := by
    intro y
    have h2 := List.takeWhile_append_dropWhile (p := isPyWs) (l := y.reverse)
    have h3 := congrArg List.reverse h2
    rw [List.reverse_append, List.reverse_reverse] at h3
    exact h3.symm
  refine ⟨x.takeWhile isPyWs,
    ((x.dropWhile isPyWs).reverse.takeWhile isPyWs).reverse, ?_⟩
  calc x = x.takeWhile isPyWs ++ x.dropWhile isPyWs :=
        (List.takeWhile_append_dropWhile isPyWs x).symm
    _ = x.takeWhile isPyWs ++ (((x.dropWhile isPyWs).reverse.dropWhile isPyWs).reverse
          ++ ((x.dropWhile isPyWs).reverse.takeWhile isPyWs).reverse) :=
        congrArg (fun t => x.takeWhile isPyWs ++ t) (h1 (x.dropWhile isPyWs))
    _ = x.takeWhile isPyWs ++ pyStrip x
          ++ ((x.dropWhile isPyWs).reverse.takeWhile isPyWs).reverse := by
        unfold pyStrip
        simp [List.append_assoc]

/-- `pyStrip` cannot create a pattern occurrence. -/
theorem pyIn_pyStrip_false {pat x : List Char} (hp : pat ≠ [])
    (h : pyIn pat x = false) : pyIn pat (pyStrip x) = false := by
  cases hq : pyIn pat (pyStrip x) with
  | false => rfl
  | true =>
    obtain ⟨a, b, hab⟩ := decomp_of_pyIn hq
    obtain ⟨a0, b0, hx⟩ := pyStrip_infix x
    have : pyIn pat x = true := pyIn_of_decomp hp (a0 ++ a) (b ++ b0) x
      (by rw [hx, hab]; simp [List.append_assoc])
    rw [h] at this
    exact Bool.noConfusion this

/-- A newline-free pattern cannot occur across a newline barrier. -/
theorem pyIn_barrier {pat u w : List Char} (hp : pat ≠ []) (hnl : '\n' ∉ pat)
    (hu : pyIn pat u = false) (hw : pyIn pat w = false) :
    pyIn pat (u ++ '\n' :: w) = false := by
  cases hq : pyIn pat (u ++ '\n' :: w) with
  | false => rfl
  | true =>
    exfalso
    obtain ⟨a, b, hab⟩ := decomp_of_pyIn hq
    by_cases hle : a.length + pat.length ≤ u.length
    · have hpre1 : (a ++ pat) <+: u ++ '\n' :: w := ⟨b, by rw [hab]⟩
      have hpre2 : u <+: u ++ '\n' :: w := ⟨'\n' :: w, rfl⟩
      obtain ⟨u2, hu2⟩ := List.prefix_of_prefix_length_le hpre1 hpre2
        (by simp only [List.length_append]; omega)
      have := pyIn_of_decomp hp a u2 u (by rw [← hu2])
      rw [hu] at this
      exact Bool.noConfusion this
    · by_cases hge : u.length + 1 ≤ a.length
      · have hpre1 : (u ++ ['\n']) <+: u ++ '\n' :: w := ⟨w, by simp⟩
        have hpre2 : a <+: u ++ '\n' :: w :=
          ⟨pat ++ b, by rw [hab]; simp [List.append_assoc]⟩
        obtain ⟨a0, ha0⟩ := List.prefix_of_prefix_length_le hpre1 hpre2
          (by simp only [List.length_append, List.length_cons]; simp; omega)
        have h2 : u ++ '\n' :: w = u ++ '\n' :: (a0 ++ pat ++ b) := by
          rw [hab, ← ha0]
          simp [List.append_assoc]
        have h3 := List.append_cancel_left h2
        injection h3 with _ h4
        have := pyIn_of_decomp hp a0 b w h4
        rw [hw] at this
        exact Bool.noConfusion this
      · push_neg at hle hge
        have hprea : a <+: u ++ '\n' :: w :=
          ⟨pat ++ b, by rw [hab]; simp [List.append_assoc]⟩
        have hpre2 : u <+: u ++ '\n' :: w := ⟨'\n' :: w, rfl⟩
        have hpne : pat.length ≥ 1 := by
          cases pat with
          | nil => exact absurd rfl hp
          | cons p0 pt => simp
        obtain ⟨u2, hu2⟩ := List.prefix_of_prefix_length_le hprea hpre2 (by omega)
        have hrest : pat ++ b = u2 ++ '\n' :: w := by
          have h2 : a ++ (pat ++ b) = a ++ (u2 ++ '\n' :: w) := by
            calc a ++ (pat ++ b) = a ++ pat ++ b := by simp [List.append_assoc]
              _ = u ++ '\n' :: w := hab.symm
              _ = (a ++ u2) ++ '\n' :: w := by rw [hu2]
              _ = a ++ (u2 ++ '\n' :: w) := by simp [List.append_assoc]
          exact List.append_cancel_left h2
        have hpp : (u2 ++ ['\n']) <+: pat ++ b := ⟨w, by rw [hrest]; simp⟩
        have hp2 : pat <+: pat ++ b := ⟨b, rfl⟩
        have hlenu2 : u2.length + a.length = u.length := by
          have := congrArg List.length hu2
          simp at this
          omega
        obtain ⟨p2, hp2'⟩ := List.prefix_of_prefix_length_le hpp hp2
          (by simp only [List.length_append, List.length_singleton]; omega)
        apply hnl
        rw [← hp2']
        exact List.mem_append_left _ (List.mem_append_right _ (List.mem_singleton.mpr rfl))


/-- `splitFirst` skips a newline-terminated block that does not contain the
(newline-free) pattern. -/
theorem splitFirst_skip_barrier {pat : List Char} (hp : pat ≠ []) (hnl : '\n' ∉ pat) :
    ∀ (x tail : List Char), pyIn pat x = false → x.getLast? = some '\n' →
    splitFirst pat (x ++ tail) =
      (splitFirst pat tail).map (fun p => (x ++ p.1, p.2)) := by
  intro x
  induction x with
  | nil =>
    intro tail _ hlast
    exact absurd hlast (by simp)
  | cons c x' ih =>
    intro tail hno hlast
    rw [List.cons_append, splitFirst.eq_def]
    dsimp only
    have hnpre : ¬ pat.isPrefixOf (c :: (x' ++ tail)) = true := by
      intro hpre
      obtain ⟨u, hu⟩ := List.isPrefixOf_iff_prefix.mp hpre
      have hu' : pat ++ u = (c :: x') ++ tail := by rw [hu]; simp
      by_cases hle : pat.length ≤ (c :: x').length
      · have h1 : pat <+: (c :: x') ++ tail := ⟨u, hu'⟩
        have h2 : (c :: x') <+: (c :: x') ++ tail := ⟨tail, rfl⟩
        obtain ⟨y2, hy2⟩ := List.prefix_of_prefix_length_le h1 h2 hle
        have := pyIn_of_decomp hp [] y2 (c :: x') (by rw [← hy2]; simp)
        rw [hno] at this
        exact Bool.noConfusion this
      · push_neg at hle
        have h1 : (c :: x') <+: pat ++ u := ⟨tail, hu'.symm⟩
        have h2 : pat <+: pat ++ u := ⟨u, rfl⟩
        obtain ⟨p2, hp2⟩ := List.prefix_of_prefix_length_le h1 h2 (by omega)
        apply hnl
        rw [← hp2]
        exact List.mem_append_left _ (List.mem_of_getLast?_eq_some hlast)
    rw [if_neg hnpre]
    by_cases hx' : x' = []
    · subst hx'
      simp
    · have hlast' : x'.getLast? = some '\n' := by
        rw [← getLast?_cons_of_ne_nil (a := c) hx']
        exact hlast
      have hno' : pyIn pat x' = false := by
        cases hq : pyIn pat x' with
        | false => rfl
        | true =>
          obtain ⟨a, b, hab⟩ := decomp_of_pyIn hq
          have := pyIn_of_decomp hp (c :: a) b (c :: x')
            (by rw [hab]; simp)
          rw [hno] at this
          exact Bool.noConfusion this
      rw [ih tail hno' hlast']
      cases splitFirst pat tail with
      | none => rfl
      | some p => simp

/-- `pyStrip` of whitespace-padded text with non-whitespace ends is the core. -/
theorem pyStrip_shape (ws body rest : List Char) (hws : allJsonWs ws)
    (hrest : allJsonWs rest) (hne : body ≠ [])
    (hhd : ∀ c, body.head? = some c → isPyWs c = false)
    (hlast : ∀ c, body.getLast? = some c → isPyWs c = false) :
    pyStrip (ws ++ body ++ rest) = body := by
  unfold pyStrip
  have hws' : ∀ c ∈ ws, isPyWs c = true := fun c hc => isPyWs_of_isJsonWs (hws c hc)
  have hrest' : ∀ c ∈ rest.reverse, isPyWs c = true := fun c hc =>
    isPyWs_of_isJsonWs (hrest c (List.mem_reverse.mp hc))
  rw [List.append_assoc, List.dropWhile_append_of_pos hws']
  cases hb : body with
  | nil => exact absurd hb hne
  | cons b0 bt =>
    have hb0 : isPyWs b0 = false := hhd b0 (by rw [hb]; rfl)
    have hb0' : ¬ isPyWs b0 = true := by simp [hb0]
    rw [List.cons_append, List.dropWhile_cons_of_neg hb0']
    rw [show b0 :: (bt ++ rest) = (b0 :: bt) ++ rest from by simp,
      List.reverse_append, List.dropWhile_append_of_pos hrest']
    cases hr : (b0 :: bt).reverse with
    | nil => exact absurd hr (by simp)
    | cons r0 rt =>
      have hr0 : (b0 :: bt).getLast? = some r0 := by
        rw [← List.head?_reverse, hr]
        rfl
      have hr0w : isPyWs r0 = false := by
        apply hlast
        rw [hb]
        exact hr0
      have hr0w' : ¬ isPyWs r0 = true := by simp [hr0w]
      rw [List.dropWhile_cons_of_neg hr0w', ← hr, List.reverse_reverse]

/-- Text with non-whitespace ends is fixed by `pyStrip`. -/
theorem pyStrip_id {l : List Char} (hne : l ≠ [])
    (hhd : ∀ c, l.head? = some c → isPyWs c = false)
    (hlast : ∀ c, l.getLast? = some c → isPyWs c = false) : pyStrip l = l := by
  have h := pyStrip_shape [] l []
    (by intro c hc; cases hc) (by intro c hc; cases hc) hne hhd hlast
  simpa using h

/-- Whitespace-only text is fully skipped. -/
theorem dropWhile_nil_of_allJsonWs {l : List Char} (h : allJsonWs l) :
    l.dropWhile isJsonWs = [] :=
  List.dropWhile_eq_nil_iff.mpr h

/-- Decomposition of a successful `jsonParse`: leading whitespace, a core with
non-whitespace ends (bracketed for arrays), trailing whitespace; the core
parses to the same value with exactly adequate fuel. -/
theorem jsonParse_shape {s : List Char} {v : Json} (h : jsonParse s = some v) :
    ∃ ws body rest, s = ws ++ body ++ rest ∧ allJsonWs ws ∧ allJsonWs rest ∧
      body ≠ [] ∧ (∀ c, body.head? = some c → isPyWs c = false) ∧
      (∀ c, body.getLast? = some c → isPyWs c = false) ∧
      (∀ xs, v = Json.arr xs → body.head? = some '[' ∧ body.getLast? = some ']') ∧
      parseVal (body.length + 1) body = some (v, []) ∧
      jsonParse body = some v := by
  unfold jsonParse at h
  cases hp : parseVal (s.length + 1) s with
  | none => rw [hp] at h; exact Option.noConfusion h
  | some p =>
    rw [hp] at h
    obtain ⟨v0, rest⟩ := p
    dsimp only at h
    by_cases hr : rest.dropWhile isJsonWs = []
    · rw [if_pos hr] at h
      injection h with hv
      subst hv
      obtain ⟨ws, body, hdecomp, hws, hbne, hhd, hlast, harr⟩ :=
        (parse_shape _).1 s v0 rest hp
      have hrest : allJsonWs rest := allJsonWs_of_dropWhile_nil hr
      have h1 : parseVal (s.length + 1) (body ++ rest) = some (v0, rest) := by
        rw [← parseVal_skip_ws _ ws _ hws, ← List.append_assoc, ← hdecomp]
        exact hp
      have h2 : parseVal (s.length + 1) (body ++ rest) = some (v0, [] ++ rest) := by
        rw [List.nil_append]
        exact h1
      have h3 := (parse_repl rest [] hrest (by intro c hc; cases hc)
        (s.length + 1)).1 body v0 [] h2
      simp only [List.append_nil, List.nil_append] at h3
      have h5 := (parse_fuel_adequate (s.length + 1)).1 body v0 [] h3
        (body.length + 1) (by simp only [List.length_nil]; omega)
      refine ⟨ws, body, rest, hdecomp, hws, hrest, hbne, hhd, hlast, harr, h5, ?_⟩
      unfold jsonParse
      rw [h5]
      rfl
    · rw [if_neg hr] at h
      exact Option.noConfusion h

/-- Stripping Python whitespace preserves a successful strict parse. -/
theorem jsonParse_pyStrip {s : List Char} {v : Json} (h : jsonParse s = some v) :
    jsonParse (pyStrip s) = some v := by
  obtain ⟨ws, body, rest, hdecomp, hws, hrest, hbne, hhd, hlast, _, _, hbody⟩ :=
    jsonParse_shape h
  rw [hdecomp, pyStrip_shape ws body rest hws hrest hbne hhd hlast]
  exact hbody

/-- Padding with JSON whitespace on both sides preserves a strict parse. -/
theorem jsonParse_pad {p q s : List Char} {v : Json} (hp : allJsonWs p)
    (hq : allJsonWs q) (h : jsonParse s = some v) :
    jsonParse (p ++ s ++ q) = some v := by
  obtain ⟨ws, body, rest, hdecomp, hws, hrest, hbne, hhd, hlast, _, h5, _⟩ :=
    jsonParse_shape h
  have hz' : allJsonWs (rest ++ q) := by
    intro c hc
    rcases List.mem_append.mp hc with h1 | h1
    exacts [hrest c h1, hq c h1]
  have h6 : parseVal (body.length + 1) (body ++ []) = some (v, [] ++ []) := by
    simp only [List.append_nil, List.nil_append]
    exact h5
  have h7 := (parse_repl [] (rest ++ q) (by intro c hc; cases hc) hz'
    (body.length + 1)).1 body v [] h6
  simp only [List.nil_append] at h7
  have hpws : allJsonWs (p ++ ws) := by
    intro c hc
    rcases List.mem_append.mp hc with h1 | h1
    exacts [hp c h1, hws c h1]
  have h8 : parseVal (body.length + 1) ((p ++ ws) ++ (body ++ (rest ++ q)))
      = some (v, rest ++ q) := by
    rw [parseVal_skip_ws _ _ _ hpws]
    exact h7
  have harg : (p ++ ws) ++ (body ++ (rest ++ q)) = p ++ s ++ q := by
    rw [hdecomp]
    simp [List.append_assoc]
  rw [harg] at h8
  have h9 := (parse_fuel_adequate (body.length + 1)).1 _ v (rest ++ q) h8
    ((p ++ s ++ q).length + 1) (by omega)
  unfold jsonParse
  rw [h9]
  dsimp only
  rw [if_pos (dropWhile_nil_of_allJsonWs hz')]

/-- JSON whitespace is never an opening bracket. -/
theorem ne_lbracket_of_jsonWs {c : Char} (h : isJsonWs c = true) : c ≠ '[' := by
  simp only [isJsonWs, Bool.or_eq_true, decide_eq_true_eq] at h
  rcases h with ((h | h) | h) | h <;> subst h <;> decide

/-- JSON whitespace is never a closing bracket. -/
theorem ne_rbracket_of_jsonWs {c : Char} (h : isJsonWs c = true) : c ≠ ']' := by
  simp only [isJsonWs, Bool.or_eq_true, decide_eq_true_eq] at h
  rcases h with ((h | h) | h) | h <;> subst h <;> decide


/-- A `dropWhile` stops at a head failing the predicate (explicit form). -/
theorem dropWhile_cons_stop (p : Char → Bool) (a : Char) (l : List Char)
    (h : p a = false) : (a :: l).dropWhile p = a :: l :=
  List.dropWhile_cons_of_neg (by simp [h] : ¬ p a = true)

/-- The regex recovery on a padded array text yields the bracketed core,
which re-parses to the same array. -/
theorem extractBrackets_pad {pre suf s : List Char} {xs : List Json}
    (hpre : '[' ∉ pre) (hsuf : ']' ∉ suf)
    (h : jsonParse s = some (Json.arr xs)) :
    ∃ body, extractBrackets (pre ++ s ++ suf) = some body ∧
      jsonParse body = some (Json.arr xs) := by
  obtain ⟨ws, body, rest, hdecomp, hws, hrest, hbne, hhd, hlast, harr, _, hbody⟩ :=
    jsonParse_shape h
  obtain ⟨hbh, hbl⟩ := harr xs rfl
  obtain ⟨bt, hbt⟩ : ∃ bt, body = '[' :: bt := by
    cases hb : body with
    | nil => exact absurd hb hbne
    | cons b0 bts =>
      rw [hb] at hbh
      injection hbh with hb0
      exact ⟨bts, by rw [hb0]⟩
  have hbtne : bt ≠ [] := by
    intro h0
    rw [hbt, h0] at hbl
    injection hbl with hbl
    exact absurd hbl (by decide)
  have hACS : pre ++ s ++ suf = (pre ++ ws) ++ (body ++ (rest ++ suf)) := by
    rw [hdecomp]
    simp [List.append_assoc]
  have hAll1 : ∀ c ∈ pre ++ ws, (fun c => !(c = '[' : Bool)) c = true := by
    intro c hc
    rcases List.mem_append.mp hc with h1 | h1
    · have h2 : c ≠ '[' := fun he => hpre (he ▸ h1)
      simp [h2]
    · have h2 : c ≠ '[' := ne_lbracket_of_jsonWs (hws c h1)
      simp [h2]
  have ht : (pre ++ s ++ suf).dropWhile (fun c => !(c = '[' : Bool))
      = body ++ (rest ++ suf) := by
    rw [hACS, List.dropWhile_append_of_pos hAll1, hbt, List.cons_append,
      dropWhile_cons_stop _ _ _ (by decide)]
  obtain ⟨br, hbr⟩ : ∃ br, body.reverse = ']' :: br := by
    cases hrv : body.reverse with
    | nil =>
      exfalso
      apply hbne
      have h2 := congrArg List.reverse hrv
      rw [List.reverse_reverse] at h2
      simpa using h2
    | cons r0 rt =>
      have h2 : body.getLast? = some r0 := by
        rw [← List.head?_reverse, hrv]
        rfl
      rw [hbl] at h2
      injection h2 with h2
      exact ⟨rt, by rw [h2]⟩
  have hAll2 : ∀ c ∈ (rest ++ suf).reverse, (fun c => !(c = ']' : Bool)) c = true := by
    intro c hc
    rcases List.mem_append.mp (List.mem_reverse.mp hc) with h1 | h1
    · have h2 : c ≠ ']' := ne_rbracket_of_jsonWs (hrest c h1)
      simp [h2]
    · have h2 : c ≠ ']' := fun he => hsuf (he ▸ h1)
      simp [h2]
  have hr : (body ++ (rest ++ suf)).reverse.dropWhile (fun c => !(c = ']' : Bool))
      = body.reverse := by
    rw [List.reverse_append, List.dropWhile_append_of_pos hAll2, hbr,
      dropWhile_cons_stop _ _ _ (by decide)]
  refine ⟨body, ?_, hbody⟩
  unfold extractBrackets
  dsimp only
  rw [ht, hr]
  have hlen2 : 2 ≤ body.reverse.length := by
    rw [List.length_reverse, hbt, List.length_cons]
    have h2 := List.length_pos.mpr hbtne
    omega
  rw [if_pos hlen2, List.reverse_reverse]


/-- String concatenation concatenates the underlying character lists. -/
theorem data_append (a b : String) : (a ++ b).data = a.data ++ b.data := by
  cases a
  cases b
  rfl

/-- With no fence marker anywhere in the response, the first parsing tier
hands `json.loads` the doubly-stripped response text. -/
theorem tier1Text_no_fence (response : String)
    (hno : pyIn "```".data response.data = false) :
    tier1Text response = pyStrip (pyStrip response.data) := by
  have hem : pyIn "```json".data response.data = false := by
    cases hq : pyIn "```json".data response.data with
    | false => rfl
    | true =>
      have h2 := pyIn_mono_pre (by decide)
        (⟨"json".data, by decide⟩ : "```".data <+: "```json".data) hq
      rw [hno] at h2
      exact Bool.noConfusion h2
  have h1 : pyIn "```".data (pyStrip response.data) = false :=
    pyIn_pyStrip_false (by decide) hno
  have h2 : pyIn "```json".data (pyStrip response.data) = false :=
    pyIn_pyStrip_false (by decide) hem
  unfold tier1Text fenceCut
  rw [splitFirst_eq_none h2]
  dsimp only
  rw [splitFirst_eq_none h1]


/-- First-tier text of a ```json-fenced response: the newline-framed payload. -/
theorem tier1_wrapJson (s : String) (hno : pyIn "```".data s.data = false) :
    tier1Text (wrapJsonFence s) = pyStrip ('\n' :: (s.data ++ ['\n'])) := by
  have hwd : (wrapJsonFence s).data = "```json\n".data ++ s.data ++ "\n```".data := by
    unfold wrapJsonFence
    rw [data_append, data_append]
  have hne : "```json\n".data ++ s.data ++ "\n```".data ≠ [] := by
    intro h0
    obtain ⟨h1, h2⟩ := List.append_eq_nil.mp h0
    exact absurd h2 (by decide)
  have hhd1 : ∀ c, ("```json\n".data ++ s.data ++ "\n```".data).head? = some c →
      isPyWs c = false := by
    intro c hc
    rw [show ("```json\n".data ++ s.data ++ "\n```".data).head? = some '`' from rfl] at hc
    injection hc with hc
    subst hc
    decide
  have hlast1 : ∀ c, ("```json\n".data ++ s.data ++ "\n```".data).getLast? = some c →
      isPyWs c = false := by
    intro c hc
    rw [List.getLast?_append_of_ne_nil _ (show "\n```".data ≠ [] by decide),
      show "\n```".data.getLast? = some '`' from rfl] at hc
    injection hc with hc
    subst hc
    decide
  have hstrip : pyStrip ("```json\n".data ++ s.data ++ "\n```".data)
      = "```json\n".data ++ s.data ++ "\n```".data := pyStrip_id hne hhd1 hlast1
  have hform : "```json\n".data ++ s.data ++ "\n```".data
      = "```json".data ++ ('\n' :: (s.data ++ "\n```".data)) := by
    rw [show "```json\n".data = "```json".data ++ ['\n'] from rfl]
    simp [List.append_assoc]
  have hsplit1 : splitFirst "```json".data ("```json\n".data ++ s.data ++ "\n```".data)
      = some ([], '\n' :: (s.data ++ "\n```".data)) := by
    rw [hform, splitFirst_self (by decide)]
  have hx : pyIn "```".data ('\n' :: (s.data ++ ['\n'])) = false := by
    have h1 : pyIn "```".data (s.data ++ '\n' :: []) = false :=
      pyIn_barrier (by decide) (by decide) hno rfl
    have h2 : pyIn "```".data ([] ++ '\n' :: (s.data ++ '\n' :: [])) = false :=
      pyIn_barrier (by decide) (by decide) rfl h1
    simpa using h2
  have hxlast : ('\n' :: (s.data ++ ['\n'])).getLast? = some '\n' := by
    rw [getLast?_cons_of_ne_nil (by simp), List.getLast?_append_of_ne_nil _ (by simp)]
    rfl
  have hsplit2 : splitFirst "```".data (('\n' :: (s.data ++ ['\n'])) ++ "```".data)
      = some ('\n' :: (s.data ++ ['\n']), []) := by
    rw [splitFirst_skip_barrier (by decide) (by decide) _ _ hx hxlast,
      show splitFirst "```".data "```".data = some ([], []) from rfl]
    simp
  have harg : ('\n' :: (s.data ++ "\n```".data))
      = ('\n' :: (s.data ++ ['\n'])) ++ "```".data := by
    rw [show "\n```".data = '\n' :: "```".data from rfl]
    simp [List.append_assoc]
  unfold tier1Text
  rw [hwd, hstrip]
  unfold fenceCut
  rw [hsplit1]
  dsimp only
  rw [harg, hsplit2]

/-- First-tier text of a plain ```-fenced response: the empty string, because
the opening fence is the first marker and the cut keeps what precedes it. -/
theorem tier1_wrapPlain (s : String) (hno : pyIn "```".data s.data = false) :
    tier1Text (wrapPlainFence s) = [] := by
  have hwd : (wrapPlainFence s).data = "```\n".data ++ s.data ++ "\n```".data := by
    unfold wrapPlainFence
    rw [data_append, data_append]
  have hne : "```\n".data ++ s.data ++ "\n```".data ≠ [] := by
    intro h0
    obtain ⟨h1, h2⟩ := List.append_eq_nil.mp h0
    exact absurd h2 (by decide)
  have hhd1 : ∀ c, ("```\n".data ++ s.data ++ "\n```".data).head? = some c →
      isPyWs c = false := by
    intro c hc
    rw [show ("```\n".data ++ s.data ++ "\n```".data).head? = some '`' from rfl] at hc
    injection hc with hc
    subst hc
    decide
  have hlast1 : ∀ c, ("```\n".data ++ s.data ++ "\n```".data).getLast? = some c →
      isPyWs c = false := by
    intro c hc
    rw [List.getLast?_append_of_ne_nil _ (show "\n```".data ≠ [] by decide),
      show "\n```".data.getLast? = some '`' from rfl] at hc
    injection hc with hc
    subst hc
    decide
  have hstrip : pyStrip ("```\n".data ++ s.data ++ "\n```".data)
      = "```\n".data ++ s.data ++ "\n```".data := pyStrip_id hne hhd1 hlast1
  have hform : "```\n".data ++ s.data ++ "\n```".data
      = "```".data ++ ('\n' :: (s.data ++ '\n' :: "```".data)) := by
    rw [show "```\n".data = "```".data ++ ['\n'] from rfl,
      show "\n```".data = '\n' :: "```".data from rfl]
    simp [List.append_assoc]
  have hsfree : pyIn "```json".data s.data = false := by
    cases hq : pyIn "```json".data s.data with
    | false => rfl
    | true =>
      have h2 := pyIn_mono_pre (by decide)
        (⟨"json".data, by decide⟩ : "```".data <+: "```json".data) hq
      rw [hno] at h2
      exact Bool.noConfusion h2
  have hnojson : pyIn "```json".data ("```\n".data ++ s.data ++ "\n```".data) = false := by
    rw [hform]
    apply pyIn_barrier (by decide) (by decide) (by decide)
    refine pyIn_barrier (by decide) (by decide) hsfree (by decide)
  have hsplit3 : splitFirst "```".data ("```\n".data ++ s.data ++ "\n```".data)
      = some ([], '\n' :: (s.data ++ '\n' :: "```".data)) := by
    rw [hform, splitFirst_self (by decide)]
  unfold tier1Text
  rw [hwd, hstrip]
  unfold fenceCut
  rw [splitFirst_eq_none hnojson]
  dsimp only
  rw [hsplit3]
  rfl


/-- C7 (amended): for a response that strict-JSON-parses to an array of step
objects and contains no ``` fence marker of its own, wrapping it in a
```json fence or a plain ``` fence leaves the parsed plan unchanged: all
three presentations yield exactly the parsed steps.  (Without the no-marker
proviso the property fails; see the counterexample.) -/
theorem parse_tool_plan_fencing_invariant (s : String) (xs : List Json)
    (harr : jsonParse s.data = some (Json.arr xs))
    (_hsteps : ∀ j ∈ xs, ∃ kvs, j = Json.obj kvs)
    (hno : pyIn "```".data s.data = false) :
    parse_tool_plan (wrapJsonFence s) = xs ∧
    parse_tool_plan (wrapPlainFence s) = xs ∧
    parse_tool_plan s = xs := by
  refine ⟨?_, ?_, ?_⟩
  · -- ```json fence: tier 1 parses the newline-framed payload
    have hpad : jsonParse ('\n' :: (s.data ++ ['\n'])) = some (Json.arr xs) := by
      have h2 := jsonParse_pad (p := ['\n']) (q := ['\n'])
        (by intro c hc; rw [List.mem_singleton.mp hc]; rfl)
        (by intro c hc; rw [List.mem_singleton.mp hc]; rfl) harr
      rw [show ['\n'] ++ s.data ++ ['\n'] = '\n' :: (s.data ++ ['\n']) from by simp] at h2
      exact h2
    have h3 := jsonParse_pyStrip hpad
    unfold parse_tool_plan
    rw [tier1_wrapJson s hno, h3]
  · -- plain fence: tier 1 fails on the empty cut, recovery re-extracts the array
    unfold parse_tool_plan
    rw [tier1_wrapPlain s hno]
    rw [show jsonParse ([] : List Char) = none from rfl]
    dsimp only
    have hwd : (wrapPlainFence s).data = "```\n".data ++ s.data ++ "\n```".data := by
      unfold wrapPlainFence
      rw [data_append, data_append]
    rw [hwd]
    obtain ⟨body, hex, hb⟩ := extractBrackets_pad
      (show '[' ∉ "```\n".data by decide) (show ']' ∉ "\n```".data by decide) harr
    rw [hex]
    dsimp only
    rw [hb]
  · -- no markup: both strips preserve the parse
    have h3 := jsonParse_pyStrip (jsonParse_pyStrip harr)
    unfold parse_tool_plan
    rw [tier1Text_no_fence s hno, h3]

set_option maxRecDepth 10000 in
/-- Counterexample to C7 as stated: this response is a valid JSON array of
one step object, yet its payload contains fence markers, so the fence-cut
tier mangles the unwrapped response down to the inner `[]` (an empty plan),
while the ```json-wrapped form fails tier 1 and recovers the full array. -/
theorem parse_tool_plan_fencing_cex :
    jsonParse ("[\x7b\"tool\": \"a```json [] ```b\"\x7d]" : String).data
      = some (Json.arr [Json.obj [("tool", Json.str "a```json [] ```b")]]) ∧
    (parse_tool_plan "[\x7b\"tool\": \"a```json [] ```b\"\x7d]").length = 0 ∧
    (parse_tool_plan
      (wrapJsonFence "[\x7b\"tool\": \"a```json [] ```b\"\x7d]")).length = 1 :=
  ⟨rfl, rfl, rfl⟩

set_option maxRecDepth 10000 in
/-- Witness for the amended C7 at a concrete one-step plan. -/
theorem parse_tool_plan_fencing_witness :
    jsonParse ("[\x7b\"tool\": \"general_chat\"\x7d]" : String).data
      = some (Json.arr [Json.obj [("tool", Json.str "general_chat")]]) ∧
    pyIn "```".data ("[\x7b\"tool\": \"general_chat\"\x7d]" : String).data = false ∧
    (parse_tool_plan (wrapJsonFence "[\x7b\"tool\": \"general_chat\"\x7d]")
        = [Json.obj [("tool", Json.str "general_chat")]] ∧
      parse_tool_plan (wrapPlainFence "[\x7b\"tool\": \"general_chat\"\x7d]")
        = [Json.obj [("tool", Json.str "general_chat")]] ∧
      parse_tool_plan "[\x7b\"tool\": \"general_chat\"\x7d]"
        = [Json.obj [("tool", Json.str "general_chat")]]) :=
  ⟨rfl, by decide,
    parse_tool_plan_fencing_invariant "[\x7b\"tool\": \"general_chat\"\x7d]"
      [Json.obj [("tool", Json.str "general_chat")]] rfl
      (fun j hj => by rw [List.mem_singleton.mp hj]; exact ⟨_, rfl⟩)
      (by decide)⟩

/-- C10 (amended): a response without fence markers that strict-JSON-parses
to a single object is returned as the one-element plan `[that object]`;
totality of `parse_tool_plan` (always a list, never an exception) is carried
by its type.  (Without the no-marker proviso the property fails; see the
counterexample.) -/
theorem parse_tool_plan_single_object (response : String)
    (kvs : List (String × Json))
    (hobj : jsonParse response.data = some (Json.obj kvs))
    (hno : pyIn "```".data response.data = false) :
    parse_tool_plan response = [Json.obj kvs] := by
  have h3 := jsonParse_pyStrip (jsonParse_pyStrip hobj)
  unfold parse_tool_plan
  rw [tier1Text_no_fence response hno, h3]

set_option maxRecDepth 10000 in
/-- Counterexample to C10 as stated: this response strict-JSON-parses to a
single object, but its string value contains a fence marker, so the
fence-cut tier truncates the text, strict parsing fails, bracket recovery
finds no array, and the degraded `general_chat` step is returned instead of
`[that object]`. -/
theorem parse_tool_plan_single_object_cex :
    jsonParse ("\x7b\"a\": \"```\"\x7d" : String).data
      = some (Json.obj [("a", Json.str "```")]) ∧
    parse_tool_plan "\x7b\"a\": \"```\"\x7d"
      = [fallbackStep "\x7b\"a\": \"```\"\x7d"] ∧
    ¬ parse_tool_plan "\x7b\"a\": \"```\"\x7d"
      = [Json.obj [("a", Json.str "```")]] := by
  refine ⟨rfl, rfl, ?_⟩
  intro h
  have h2 := congrArg (fun l : List Json =>
    match l with
    | [Json.obj kvs] => (jLookup "tool" kvs).isSome
    | _ => false) h
  exact Bool.noConfusion (show (true : Bool) = false from h2)

set_option maxRecDepth 10000 in
/-- Witness for the amended C10 at a concrete single-object response. -/
theorem parse_tool_plan_single_object_witness :
    jsonParse ("\x7b\"tool\": \"general_chat\"\x7d" : String).data
      = some (Json.obj [("tool", Json.str "general_chat")]) ∧
    pyIn "```".data ("\x7b\"tool\": \"general_chat\"\x7d" : String).data = false ∧
    parse_tool_plan "\x7b\"tool\": \"general_chat\"\x7d"
      = [Json.obj [("tool", Json.str "general_chat")]] :=
  ⟨rfl, by decide,
    parse_tool_plan_single_object "\x7b\"tool\": \"general_chat\"\x7d"
      [("tool", Json.str "general_chat")] rfl (by decide)⟩

end DIA
